import Mathlib

/-!
# Verification of the kanon mixed-radix arithmetic core

This file gives a shallow embedding of the `BasedReal` mixed-radix number
type and its precision context, translated from `kanon/units/radices.py` and
`kanon/units/precision.py`, together with theorems settling the frozen
claims about that code.

Modelling conventions:

* Python `Decimal` values (exact decimal remainders and conversions) and
  Python `float` values are both idealized as exact rationals `ℚ`.  The
  `__float__` conversion computes the same signed weighted sum as the
  `decimal` property, so under this idealization the two coincide.
* Python exceptions are modelled with `Except Err` / `Option`; each
  constructor of `Err` corresponds to one exception site in the source.
* Digit tuples are Lean lists; `LoopingList` indexing is `loopGet`.
* Internal re-constructions `type(self)(left, right, ...)` performed by the
  arithmetic algorithms are modelled by `BasedReal.make`, which performs the
  leading-zero normalization of `BasedReal.__new__` but not its range
  re-validation; theorems carry explicit validity hypotheses.  Skipping the
  re-validation is faithful exactly when the rebuilt digits are in range,
  which holds on bases whose fractional radices are non-decreasing
  (`fracMono`, satisfied by every registered numeral system).  On a base
  with a larger fractional radix before a smaller one, `resize` rebuilds an
  out-of-range digit and the source constructor raises
  `IllegalBaseValueError` inside addition; the C8 counterexample records
  this through the separately modelled validating constructor
  `basedRealNew`/`checkRange`, which covers `__new__`/`__check_range` for
  the construction claims.
-/

set_option autoImplicit false

/-- Error kinds raised by the kanon core; one constructor per `raise` site
modelled in this file. -/
inductive Err where
  | signError
  | remainderError
  | illegalFloat
  | illegalBaseValue (radix : ℕ) (num : ℤ)
  | zeroDivision
  | sqrtDomain
  | powDomain
  | notImplemented
  | notRegistered
  | negativePrecision
  | contextNested
  | indexError
  deriving DecidableEq, Repr

instance {ε α : Type} [DecidableEq ε] [DecidableEq α] : DecidableEq (Except ε α) :=
  fun a b =>
    match a, b with
    | .ok x, .ok y => if h : x = y then .isTrue (by rw [h]) else .isFalse (by simp [h])
    | .error x, .error y => if h : x = y then .isTrue (by rw [h]) else .isFalse (by simp [h])
    | .ok _, .error _ => .isFalse (by simp)
    | .error _, .ok _ => .isFalse (by simp)

/-- Python `int(q)` on a rational: truncation toward zero. -/
def ratTrunc (q : ℚ) : ℤ := if 0 ≤ q then ⌊q⌋ else ⌈q⌉

/-- `LoopingList.__getitem__`: out-of-range indices clamp to the outermost
defined element (`kanon/utils/looping_list.py`). -/
def loopGet (l : List ℕ) (i : ℤ) : ℕ :=
  if l.isEmpty then 0
  else if (l.length : ℤ) ≤ i then l.getLastD 0
  else if i < -(l.length : ℤ) + 1 then l.headD 0
  else if 0 ≤ i then l.getD i.toNat 0
  else l.getD ((l.length : ℤ) + i).toNat 0

/-- `RadixBase`: radix list for the integer positions (`left`, rightmost
integer position last) and for the fractional positions (`right`). -/
structure RadixBase where
  left : List ℕ
  right : List ℕ
  deriving DecidableEq, Repr

/-- Base validity: both radix lists non-empty, all radices at least 2
(the spec requires positive integer radices; a radix below 2 would make
`from_int` loop forever in the source). -/
def RadixBase.validB (br : RadixBase) : Bool :=
  !br.left.isEmpty && !br.right.isEmpty &&
    (br.left ++ br.right).all (fun r => 2 ≤ r)

/-- `RadixBase.__getitem__`: position `key ≤ 0` addresses integer radices
(0 = rightmost integer position), `key > 0` addresses fractional radices. -/
def RadixBase.atPos (br : RadixBase) (key : ℤ) : ℕ :=
  if key ≤ 0 then loopGet br.left (key - 1) else loopGet br.right (key - 1)

/-- Radix of the `j`-th integer position counted from the separator
(`base.left[-1-j]` in the source loops). -/
def RadixBase.intRadix (br : RadixBase) (j : ℕ) : ℕ :=
  loopGet br.left (-(j : ℤ) - 1)

/-- Radix of the `i`-th fractional position, 0-based (`base.right[i]`). -/
def RadixBase.fracRadix (br : RadixBase) (i : ℕ) : ℕ :=
  loopGet br.right i

/-- Product of the first `n` integer-position radices (weight of the
`n`-th integer digit from the separator). -/
def RadixBase.intFactor (br : RadixBase) : ℕ → ℕ
  | 0 => 1
  | n + 1 => br.intFactor n * br.intRadix n

/-- Product of the first `n` fractional-position radices. -/
def RadixBase.fracFactor (br : RadixBase) : ℕ → ℕ
  | 0 => 1
  | n + 1 => br.fracFactor n * br.fracRadix n

/-- `RadixBase.mixed`: true when some radix differs from the first integer
radix. -/
def RadixBase.mixed (br : RadixBase) : Bool :=
  (br.left ++ br.right).any (fun x => x ≠ br.left.headD 0)

/-- `RadixBase.factor_at_pos`. -/
def RadixBase.factorAtPos (br : RadixBase) (pos : ℤ) : ℕ :=
  (List.range pos.natAbs).foldl
    (fun acc i => acc * br.atPos (if 0 < pos then (i : ℤ) else -(i : ℤ))) 1

/-- The sexagesimal base: `RadixBase([60], [60], "sexagesimal")`. -/
def sexBase : RadixBase := ⟨[60], [60]⟩

/-- `BasedReal`: integer digits (most significant first), fractional digits,
sign, and decimal remainder. -/
structure BasedReal where
  left : List ℕ
  right : List ℕ
  sign : ℤ
  remainder : ℚ
  deriving DecidableEq, Repr

/-- `BasedReal.significant`: number of fractional digit positions. -/
def BasedReal.significant (x : BasedReal) : ℕ := x.right.length

/-- Leading-zero stripping of `BasedReal.__simplify_integer_part` combined
with the `self.left or (0,)` fallback of `__new__`: drop leading zero
integer digits, keeping at least one digit. -/
def normLeft (l : List ℕ) : List ℕ :=
  let c := ((l.take (l.length - 1)).takeWhile (fun d => d == 0)).length
  let l' := l.drop c
  if l'.isEmpty then [0] else l'

/-- Internal (non-validating) constructor used by the arithmetic algorithms:
`type(self)(left, right, remainder=…, sign=…)` with the normalization of
`__new__` applied. -/
def BasedReal.make (left right : List ℕ) (sign : ℤ) (remainder : ℚ) : BasedReal :=
  ⟨normLeft left, right, sign, remainder⟩

/-- `BasedReal.__neg__`: flip the sign only. -/
def BasedReal.neg (x : BasedReal) : BasedReal :=
  BasedReal.make x.left x.right (-x.sign) x.remainder

/-- `BasedReal.__abs__`. -/
def BasedReal.absB (x : BasedReal) : BasedReal :=
  if 0 ≤ x.sign then x else x.neg

/-- `BasedReal._set_remainder`. -/
def BasedReal.setRemainder (x : BasedReal) (remainder : ℚ) : BasedReal :=
  BasedReal.make x.left x.right x.sign remainder

/-- Weighted sum of integer digits, least significant first
(the loop of `BasedReal.__int__`). -/
def sumIntDigits (br : RadixBase) : List ℕ → ℕ → ℤ
  | [], _ => 0
  | d :: ds, j => (d : ℤ) * br.intFactor j + sumIntDigits br ds (j + 1)

/-- `BasedReal.__int__`. -/
def BasedReal.intVal (br : RadixBase) (x : BasedReal) : ℤ :=
  x.sign * sumIntDigits br x.left.reverse 0

/-- Weighted sum of fractional digits starting at fractional position `i`
(the loop of the `decimal` property). -/
def fracSumAux (br : RadixBase) : List ℕ → ℕ → ℚ
  | [], _ => 0
  | d :: ds, i => (d : ℚ) / br.fracFactor (i + 1) + fracSumAux br ds (i + 1)

/-- The `BasedReal.decimal` property: `Decimal` value of the number
(idealized as an exact rational). -/
def BasedReal.decimal (br : RadixBase) (x : BasedReal) : ℚ :=
  x.sign * (((x.intVal br).natAbs : ℚ) + fracSumAux br x.right 0
    + x.remainder / br.fracFactor x.significant)

/-- `BasedReal.__float__` computes the same signed weighted sum as the
`decimal` property, in binary floating point; with floats idealized as
exact rationals the two conversions coincide, so we reuse `decimal`. -/
def BasedReal.floatVal (br : RadixBase) (x : BasedReal) : ℚ :=
  x.decimal br

/-- Digit range check of `__check_range`: every digit of the concatenated
sequence is below the radix at its position (`s < base[i - len(left) + 1]`). -/
def digitsInRange (br : RadixBase) (leftLen : ℕ) : List ℕ → ℕ → Bool
  | [], _ => true
  | d :: ds, i =>
    decide (d < br.atPos ((i : ℤ) - leftLen + 1)) && digitsInRange br leftLen ds (i + 1)

/-- Validity invariant of a constructed `BasedReal`: sign is `±1`, remainder
lies in `[0,1)`, the integer digit list is non-empty and normalized (no
leading zero unless it is the only digit), and every digit is in range. -/
def BasedReal.validB (br : RadixBase) (x : BasedReal) : Bool :=
  (x.sign == 1 || x.sign == -1) &&
  decide (0 ≤ x.remainder) && decide (x.remainder < 1) &&
  !x.left.isEmpty &&
  (x.left.length == 1 || x.left.headD 0 != 0) &&
  digitsInRange br x.left.length (x.left ++ x.right) 0

/-- `BasedReal.zero`. -/
def BasedReal.zero (significant : ℕ) : BasedReal :=
  BasedReal.make [0] (List.replicate significant 0) 1 0

/-- `BasedReal.one`. -/
def BasedReal.one (significant : ℕ) : BasedReal :=
  BasedReal.make [1] (List.replicate significant 0) 1 0

/-- The `while value >= int_factor` loop of `BasedReal.from_int`: returns the
number of integer digits and the accumulated factor.  `fuel` bounds the loop;
`v + 1` steps always suffice since every radix is at least 2. -/
def fromIntPos (br : RadixBase) (v : ℕ) : ℕ → ℕ → ℕ → ℕ × ℕ
  | 0, pos, factor => (pos, factor)
  | fuel + 1, pos, factor =>
    if factor ≤ v then fromIntPos br v fuel (pos + 1) (factor * br.intRadix pos)
    else (pos, factor)

/-- The digit-extraction loop of `from_int`: `remaining` counts iterations
still to perform (the radix index used at each step is `remaining - 1`,
matching `base.left[-pos+i]`). -/
def fromIntLoop (br : RadixBase) : ℕ → ℕ → ℕ → List ℕ
  | 0, _, _ => []
  | remaining + 1, v, factor =>
    let factor' := factor / br.intRadix remaining
    let pv := v / factor'
    pv :: fromIntLoop br remaining (v - pv * factor') factor'

/-- `BasedReal.from_int`. -/
def fromInt (br : RadixBase) (value : ℤ) (significant : ℕ) : BasedReal :=
  let sign : ℤ := if value < 0 then -1 else 1
  let v := value.natAbs
  let pf := fromIntPos br v (v + 1) 0 1
  BasedReal.make (fromIntLoop br pf.1 v pf.2) (List.replicate significant 0) sign 0

/-- The digit-extraction loop of `from_decimal`: at step `i` multiply by
`base.right[i]`, take the integer part as the digit, keep the fraction. -/
def fromDecLoop (br : RadixBase) : ℕ → ℕ → ℚ → List ℕ × ℚ
  | 0, _, v => ([], v)
  | k + 1, i, v =>
    let v' := v * br.fracRadix i
    let pv := (ratTrunc v').toNat
    let rest := fromDecLoop br k (i + 1) (v' - ratTrunc v')
    (pv :: rest.1, rest.2)

/-- `BasedReal.from_decimal`. -/
def fromDecimal (br : RadixBase) (dec : ℚ) (significant : ℕ) : BasedReal :=
  let ip := fromInt br (ratTrunc dec) significant
  let value := |dec - (ip.intVal br : ℚ)|
  let dr := fromDecLoop br significant 0 value
  BasedReal.make ip.left dr.1 (if dec < 0 then -1 else 1) dr.2

/-- `remainder_threshold` default of `from_float`. -/
def remThreshold : ℚ := 999999 / 1000000

/-- The digit-extraction loop of `from_float`, including the two snapping
rules damping accumulated floating-point error.  `anyNZ` carries the value
of `any(x != 0 for x in right)` over the digits emitted so far (entries not
yet written are still 0 in the source's array, so the two agree). -/
def fromFloatLoop (br : RadixBase) : ℕ → ℕ → ℚ → Bool → List ℕ × ℚ
  | 0, _, v, _ => ([], v)
  | k + 1, i, v, anyNZ =>
    let f : ℚ := br.fracRadix i
    let v1 := v * f
    let fl : ℚ := ratTrunc v1
    let v2 : ℚ :=
      if v1 - fl > remThreshold ∧ v1 + 1 < f then fl + 1
      else if v1 - fl < 1 - remThreshold ∧ anyNZ then fl else v1
    let pv := (ratTrunc v2).toNat
    let rest := fromFloatLoop br k (i + 1) (v2 - ratTrunc v2) (anyNZ || pv != 0)
    (pv :: rest.1, rest.2)

/-- `BasedReal.from_float` (floats idealized as exact rationals). -/
def fromFloat (br : RadixBase) (floa : ℚ) (significant : ℕ) : BasedReal :=
  let ip := fromInt br (ratTrunc floa) significant
  let value := |floa - (ip.intVal br : ℚ)|
  let dr :=
    if value = 0 then (List.replicate significant 0, (0 : ℚ))
    else fromFloatLoop br significant 0 value false
  BasedReal.make ip.left dr.1 (if floa < 0 then -1 else 1) dr.2

/-- `BasedReal.resize` restricted to non-negative targets (all internal
uses).  Growing re-expands the remainder via `from_decimal`; shrinking packs
the dropped digits and old remainder into a new remainder. -/
def BasedReal.resize (br : RadixBase) (x : BasedReal) (significant : ℕ) : BasedReal :=
  if significant = x.significant then x
  else if x.significant < significant then
    let rem := fromDecimal br (x.sign * x.remainder) (significant - x.significant)
    BasedReal.make x.left (x.right ++ rem.right) x.sign rem.remainder
  else
    let packed := BasedReal.make [] (x.right.drop significant) 1 x.remainder
    BasedReal.make x.left (x.right.take significant) x.sign (packed.decimal br)

/-- `BasedReal.resize` on an arbitrary integer target: a negative target
falls through all three cases of the source and raises `NotImplementedError`;
a non-negative target never fails. -/
def BasedReal.resizeE (br : RadixBase) (x : BasedReal) (significant : ℤ) : Except Err BasedReal :=
  if significant < 0 then .error .notImplemented
  else .ok (x.resize br significant.toNat)

/-- `BasedReal.truncate`: drop fractional digits beyond `significant` (all
of them if omitted); a negative argument also truncates into the integer
part (`self.left[:-significant]` keeps the first `|significant|` integer
digits). -/
def BasedReal.truncateB (_br : RadixBase) (x : BasedReal) (significant : Option ℤ) : BasedReal :=
  let s : ℤ := significant.getD x.significant
  if (x.significant : ℤ) < s then x
  else
    let left := if 0 ≤ s then x.left else x.left.take (-s).toNat
    let right := if 0 ≤ s then x.right.take s.toNat else []
    BasedReal.make left right x.sign 0

/-- `BasedReal.shift` (and `<<`/`>>`): move the integer/fractional boundary.
Only defined for non-mixed bases; mixed bases raise `NotImplementedError`. -/
def BasedReal.shiftB (br : RadixBase) (x : BasedReal) (i : ℤ) : Except Err BasedReal :=
  if i = 0 then .ok x
  else if br.mixed then .error .notImplemented
  else
    let offset : ℤ := if 0 < i then x.left.length else (x.left.length : ℤ) - i
    let concat := x.left ++ x.right
    let brRem := fromDecimal br x.remainder (max 0 (offset - concat.length)).toNat
    let lr := List.replicate i.toNat 0 ++ concat ++ brRem.right
    .ok (BasedReal.make (lr.take offset.toNat) (lr.drop offset.toNat) x.sign brRem.remainder)

/-- The accumulation loop of `subunit_quantity` (digits are the reversed
slice `self[i::-1]`; `idx` enumerates it). -/
def subunitLoop (br : RadixBase) (i : ℤ) : List ℕ → ℤ → ℤ → ℤ → ℤ
  | [], _, res, _ => res
  | v :: rest, idx, res, factor =>
    subunitLoop br i rest (idx + 1) (res + v * factor) (factor * br.atPos (i - idx))

/-- `BasedReal.subunit_quantity`: integer value of the number expressed in
units of the radix at position `i`. -/
def BasedReal.subunitQuantity (br : RadixBase) (x : BasedReal) (i : ℤ) : ℤ :=
  let r := x.resize br (max 0 (i + 1)).toNat
  let arr := r.left ++ r.right
  let start : ℤ := i + r.left.length - 1
  let start' : ℤ := if 0 ≤ start then start else start + arr.length
  let digits := (arr.take (start' + 1).toNat).reverse
  x.sign * subunitLoop br i digits 0 0 1

/-- Pad a list of signed digit sums with zeros up to length `n`
(`+ [0] * (maxlen - len(v[:]))` in `_add`). -/
def padTo (l : List ℤ) (n : ℕ) : List ℤ := l ++ List.replicate (n - l.length) 0

/-- `[v.sign * x for x in v[::-1]]` in `_add`: the concatenated digit
sequence, reversed, with each digit multiplied by the operand's sign. -/
def signedRev (v : BasedReal) : List ℤ :=
  ((v.left ++ v.right).reverse).map (fun d : ℕ => v.sign * (d : ℤ))

/-- The carry-propagation loop of `_add` over the least-significant-first
sums: at index `i` the radix is `base[maxright - i]`; an out-of-range entry
is reduced modulo that radix and a carry of `±1` is pushed to the next
entry.  A carry out of the last entry would be `numbers[i+1]` past the end
of the Python list, i.e. an `IndexError` (`none`); on valid inputs this
cannot happen. -/
def carryLoop (br : RadixBase) (maxright : ℤ) : ℤ → List ℤ → Option (List ℤ)
  | _, [] => some []
  | i, r :: rest =>
    let factor : ℤ := br.atPos (maxright - i)
    if r < 0 ∨ factor ≤ r then
      match rest with
      | [] => none
      | r2 :: rest' =>
        match carryLoop br maxright (i + 1) ((r2 + (if 0 < r then 1 else -1)) :: rest') with
        | none => none
        | some out => some ((r % factor) :: out)
    else
      match carryLoop br maxright (i + 1) rest with
      | none => none
      | some out => some (r :: out)
termination_by _ l => l.length
decreasing_by all_goals simp [List.length_cons]

/-- The body of `_add` from the alignment of the two operands onward
(after the result sign has been selected and both operands negated into its
frame): digit-wise sum with the signed remainders folded into the lowest
position, carry propagation, and reassembly. -/
def addBody (br : RadixBase) (maxright maxleft : ℕ) (sgn : ℤ) (va vb : BasedReal) :
    Option BasedReal :=
  let maxlen := max (va.left.length + va.right.length) (vb.left.length + vb.right.length)
  let numbers0 : List ℤ :=
    (List.zipWith (· + ·) (padTo (signedRev va) maxlen) (padTo (signedRev vb) maxlen)) ++ [0]
  let rem0 := va.remainder * va.sign + vb.remainder * vb.sign
  let fn := if 0 ≤ rem0 then rem0 else rem0 - 1
  let rem1 := rem0 - ratTrunc fn
  let numbers1 : List ℤ :=
    match numbers0 with
    | [] => []
    | h :: t => (h + ratTrunc fn) :: t
  match carryLoop br maxright 0 numbers1 with
  | none => none
  | some ns =>
    let final := ns.reverse.map Int.natAbs
    some (BasedReal.make (final.take (maxleft + 1)) (final.drop (maxleft + 1)) sgn |rem1|)

/-- `BasedReal._add`: raw addition at full precision.  Exactly-cancelling
operands short-circuit to a plain zero; otherwise both operands are aligned
to the larger fractional length, negated into the frame of the
larger-magnitude operand's sign, summed digit-wise with the signed
remainders folded into the lowest position, and carried. -/
def BasedReal._add (br : RadixBase) (x y : BasedReal) : Option BasedReal :=
  if x.decimal br = -(y.decimal br) then some (BasedReal.zero 0)
  else
    let maxright := max x.significant y.significant
    let maxleft := max x.left.length y.left.length
    let va0 := x.resize br maxright
    let vb0 := y.resize br maxright
    let sgn := if (vb0.absB.decimal br) < (va0.absB.decimal br) then va0.sign else vb0.sign
    addBody br maxright maxleft sgn (if sgn < 0 then va0.neg else va0)
      (if sgn < 0 then vb0.neg else vb0)

/-- `_add` with the unreachable `IndexError` case surfaced in `Except`. -/
def BasedReal._addE (br : RadixBase) (x y : BasedReal) : Except Err BasedReal :=
  match x._add br y with
  | some v => .ok v
  | none => .error .indexError

/-- A custom arithmetic algorithm (`CustomArithmeticAlgorithm`):
`(a, b) -> result`. -/
def Alg : Type := BasedReal → BasedReal → BasedReal

/-- `PrecisionMode`: `SCI`/`MAX`/`FULL` or a fixed integer precision. -/
inductive PMode where
  | sci
  | max
  | full
  | fixed (n : ℤ)

/-- `TruncatureMode`. -/
inductive TMode where
  | none
  | round
  | trunc
  | ceil
  | floor

/-- `PrecisionContext`: precision rule, truncature rule, the four custom
algorithm slots, the recording flag and the `set_precision` nesting
counter. -/
structure PrecisionContext where
  pmode : PMode
  tmode : TMode
  add : Option Alg
  sub : Option Alg
  mul : Option Alg
  div : Option Alg
  recording : Bool
  stack : ℕ

/-- The default context: `PrecisionMode.MAX`, `TruncatureMode.NONE`, no
custom algorithms, not recording. -/
def defaultCtx : PrecisionContext :=
  ⟨PMode.max, TMode.none, Option.none, Option.none, Option.none, Option.none, false, 0⟩

/-- `PreciseNumber._get_significant`: the context's `_precisionfunc`.
`FULL` raises `NotImplementedError`; a fixed integer mode returns the
constant. -/
def getSignificant (ctx : PrecisionContext) (a b : BasedReal) : Except Err ℤ :=
  match ctx.pmode with
  | .sci => .ok (min a.significant b.significant)
  | .max => .ok (max a.significant b.significant)
  | .full => .error .notImplemented
  | .fixed n => .ok n

/-- The inner addition used by `__round__`: it runs under
`set_precision(pmode=MAX, tmode=NONE, recording=False)`, which keeps any
ambient custom addition algorithm, so the slot is a parameter.  This is the
operator pipeline specialized to `MAX`/`NONE` (where `resize` cannot
fail). -/
def addRound (br : RadixBase) (addAlg : Option Alg) (a b : BasedReal) : Option BasedReal :=
  match addAlg with
  | some f => some ((f a b).resize br (max a.significant b.significant))
  | none =>
    match a._add br b with
    | some raw => some (raw.resize br (max a.significant b.significant))
    | none => none

/-- `BasedReal.__round__`: resize, add one unit at the lowest kept position
when the remainder is at least one half (with the operand's sign), then
truncate. -/
def BasedReal.roundB (br : RadixBase) (addAlg : Option Alg) (x : BasedReal)
    (significant : Option ℕ) : BasedReal :=
  let s := significant.getD x.significant
  let n := x.resize br s
  let n' :=
    if (1 : ℚ) / 2 ≤ n.remainder then
      let vals := List.replicate s 0 ++ [1]
      match addRound br addAlg n (BasedReal.make (vals.take 1) (vals.drop 1) x.sign 0) with
      | some v => v
      | none => n
    else n
  n'.truncateB br (some s)

/-- `BasedReal.floor`.  Note `if significant` in the source is falsy for
both `None` and `0`, so a requested precision of 0 does not resize. -/
def BasedReal.floorB (br : RadixBase) (addAlg : Option Alg) (x : BasedReal)
    (significant : Option ℕ) : BasedReal :=
  let resized := match significant with
    | some s => if s ≠ 0 then x.resize br s else x
    | none => x
  if resized.remainder = 0 ∨ x.sign = 1 then resized.truncateB br Option.none
  else (resized.setRemainder (1 / 2)).roundB br addAlg Option.none

/-- `BasedReal.ceil`. -/
def BasedReal.ceilB (br : RadixBase) (addAlg : Option Alg) (x : BasedReal)
    (significant : Option ℕ) : BasedReal :=
  let resized := match significant with
    | some s => if s ≠ 0 then x.resize br s else x
    | none => x
  if resized.remainder = 0 ∨ x.sign = -1 then resized.truncateB br Option.none
  else (resized.setRemainder (1 / 2)).roundB br addAlg Option.none

/-- `TruncatureMode` application: each mode maps to the corresponding
method call on the result (`round`, `truncate()`, `ceil()`, `floor()`). -/
def tmodeApply (br : RadixBase) (addAlg : Option Alg) (tm : TMode) (v : BasedReal) : BasedReal :=
  match tm with
  | .none => v
  | .round => v.roundB br addAlg Option.none
  | .trunc => v.truncateB br Option.none
  | .ceil => v.ceilB br addAlg Option.none
  | .floor => v.floorB br addAlg Option.none

/-- The `_with_context_precision` wrapper: compute the raw result with the
context override (if any) or the default algorithm, resize it to the
precision selected by the context's precision rule, then apply the
truncature rule.  (The recording step only appends to the log and does not
affect the returned value.) -/
def opPipeline (br : RadixBase) (ctx : PrecisionContext) (ov : Option Alg)
    (defaultAlg : BasedReal → BasedReal → Except Err BasedReal)
    (a b : BasedReal) : Except Err BasedReal := do
  let raw ← match ov with
    | some f => pure (f a b)
    | none => defaultAlg a b
  let sig ← getSignificant ctx a b
  let v ← raw.resizeE br sig
  pure (tmodeApply br ctx.add ctx.tmode v)

/-- `PreciseNumber.__add__` for two same-type operands. -/
def addOp (br : RadixBase) (ctx : PrecisionContext) (a b : BasedReal) : Except Err BasedReal :=
  opPipeline br ctx ctx.add (fun a b => a._addE br b) a b

/-- `BasedReal._sub`: `self + -other` (note this goes through the full
addition pipeline of the ambient context). -/
def BasedReal._subE (br : RadixBase) (ctx : PrecisionContext) (x y : BasedReal) :
    Except Err BasedReal :=
  addOp br ctx x y.neg

/-- `PreciseNumber.__sub__` for two same-type operands. -/
def subOp (br : RadixBase) (ctx : PrecisionContext) (a b : BasedReal) : Except Err BasedReal :=
  opPipeline br ctx ctx.sub (fun a b => a._subE br ctx b) a b

/-- `BasedReal.__divmod__` for two same-type operands.  Mixed bases fall
back to `divmod` on the float values; non-mixed operands whose aligned
remainders are both zero use integer floor-division on subunit quantities;
otherwise floor-division/modulo is computed on the `Decimal` values, where
the modulo expression of the source parses as
`(a % b + 0) if same_sign else b`. -/
def BasedReal.divmodB (br : RadixBase) (x y : BasedReal) :
    Except Err (BasedReal × BasedReal) :=
  if br.mixed then
    if y.floatVal br = 0 then .error .zeroDivision
    else
      let fx := x.floatVal br
      let fy := y.floatVal br
      let fdiv : ℚ := ⌊fx / fy⌋
      .ok (fromFloat br fdiv x.significant, fromFloat br (fx - fdiv * fy) x.significant)
  else
    let maxSig := max x.significant y.significant
    if x.floatVal br = 0 then .ok (BasedReal.zero maxSig, BasedReal.zero maxSig)
    else
      let sSelf := x.resize br maxSig
      let sOther := y.resize br maxSig
      if sSelf.remainder = 0 ∧ sOther.remainder = 0 then
        let qself := sSelf.subunitQuantity br maxSig
        let qother := sOther.subunitQuantity br maxSig
        if qother = 0 then .error .zeroDivision
        else
          match (fromInt br (Int.fmod qself qother) 0).shiftB br maxSig with
          | .error e => .error e
          | .ok m => .ok (fromInt br (Int.fdiv qself qother) maxSig, m)
      else
        let dx := x.decimal br
        let dy := y.decimal br
        if dy = 0 then .error .zeroDivision
        else
          let fdiv := ⌊dx / dy⌋
          let md : ℚ :=
            if (fdiv : ℚ) = dx / dy then 0
            else if x.sign = y.sign then dx - (ratTrunc (dx / dy) : ℚ) * dy
            else dy
          .ok (fromInt br fdiv maxSig, fromDecimal br md maxSig)

/-- `BasedReal.__floordiv__`: first component of `divmod`. -/
def floordivOp (br : RadixBase) (x y : BasedReal) : Except Err BasedReal :=
  match x.divmodB br y with
  | .error e => .error e
  | .ok p => .ok p.1

/-- `BasedReal.__mod__`: second component of `divmod`. -/
def modOp (br : RadixBase) (x y : BasedReal) : Except Err BasedReal :=
  match x.divmodB br y with
  | .error e => .error e
  | .ok p => .ok p.2

/-- `BasedReal._mul`: raw multiplication.  Short-circuits on `±1` and `0`
operands (compared by value); mixed bases fall back to float multiply;
otherwise both operands are shifted to integers, multiplied, shifted back,
and the remainder cross-terms are folded in as a float correction through
the ambient context's addition pipeline (`res += float(rem)`). -/
def BasedReal._mulE (br : RadixBase) (ctx : PrecisionContext) (x y : BasedReal) :
    Except Err BasedReal :=
  if x.floatVal br = 1 then .ok y
  else if x.floatVal br = -1 then .ok y.neg
  else if y.floatVal br = 1 then .ok x
  else if y.floatVal br = -1 then .ok x.neg
  else if x.floatVal br = 0 ∨ y.floatVal br = 0 then .ok (BasedReal.zero 0)
  else if br.mixed then .ok (fromFloat br (x.floatVal br * y.floatVal br) x.significant)
  else do
    let maxRight := max x.significant y.significant
    let va := x.resize br maxRight
    let vb := y.resize br maxRight
    let sa ← va.shiftB br (-(maxRight : ℤ))
    let sb ← vb.shiftB br (-(maxRight : ℤ))
    let res ← (fromInt br (sa.intVal br * sb.intVal br) 0).shiftB br (2 * maxRight)
    let factor : ℚ := br.factorAtPos maxRight
    let vbRem := vb.sign * vb.remainder / factor
    let vaRem := va.sign * va.remainder / factor
    let rem := (va.truncateB br Option.none).decimal br * vbRem
      + (vb.truncateB br Option.none).decimal br * vaRem + vaRem * vbRem
    if rem ≠ 0 then addOp br ctx res (fromFloat br rem res.significant)
    else .ok res

/-- `PreciseNumber.__mul__` for two same-type operands. -/
def mulOp (br : RadixBase) (ctx : PrecisionContext) (a b : BasedReal) : Except Err BasedReal :=
  opPipeline br ctx ctx.mul (fun a b => a._mulE br ctx b) a b

/-- The per-fractional-position long-division loop of `_truediv`: multiply
the running remainder by the radix (through the context's multiplication
pipeline, as `r * self.base.right[i]` does), divide, append the digit.  If
a digit would reach the radix itself, carry one into the quotient and stop
(remaining digits stay zero); the flag records that early stop. -/
def truedivLoop (br : RadixBase) (ctx : PrecisionContext) (denominator : BasedReal) :
    ℕ → ℕ → BasedReal → Except Err (List ℕ × Bool × BasedReal)
  | 0, _, r => .ok ([], false, r)
  | k + 1, i, r => do
    let radix := br.fracRadix i
    let numerator ← mulOp br ctx r (fromFloat br radix r.significant)
    let qr ← numerator.divmodB br denominator
    if qr.1.floatVal br = radix then
      .ok (List.replicate (k + 1) 0, true, BasedReal.zero 0)
    else do
      let rest ← truedivLoop br ctx denominator k (i + 1) qr.2
      .ok ((qr.1.intVal br).toNat :: rest.1, rest.2.1, rest.2.2)

/-- The explicit-precision long-division algorithm shared by the `/`
operator's raw step, parameterized by the number of fractional digits to
produce. -/
def divisionCore (br : RadixBase) (ctx : PrecisionContext) (x y : BasedReal)
    (significant : ℕ) : Except Err BasedReal :=
  if x.floatVal br = 0 then .ok (BasedReal.zero significant)
  else if y.floatVal br = 1 then .ok x
  else if y.floatVal br = -1 then .ok x.neg
  else if y.floatVal br = 0 then .error .zeroDivision
  else do
    let sign := x.sign * y.sign
    let numerator := x.absB
    let denominator := y.absB
    let qr ← numerator.divmodB br denominator
    let qRes ← addOp br ctx (BasedReal.zero significant) qr.1
    let lp ← truedivLoop br ctx denominator significant 0 qr.2
    let qRes2 ←
      if lp.2.1 then addOp br ctx qRes (fromFloat br 1 qRes.significant) else pure qRes
    .ok (BasedReal.make qRes2.left lp.1 sign (lp.2.2.decimal br / denominator.decimal br))

/-- `BasedReal._truediv`: raw division for the `/` operator.  Mixed bases
fall back to float division; otherwise the long-division algorithm runs at
`max` of the two operands' significant counts. -/
def BasedReal._truedivE (br : RadixBase) (ctx : PrecisionContext) (x y : BasedReal) :
    Except Err BasedReal :=
  if br.mixed then
    if y.floatVal br = 0 then .error .zeroDivision
    else .ok (fromFloat br (x.floatVal br / y.floatVal br) x.significant)
  else divisionCore br ctx x y (max x.significant y.significant)

/-- The explicit-precision division method `division(other, significant)`
of `src/histropy/units/radices.py` (line 843), which the spec's §4.5
describes and which kanon's `_truediv` inlines: it short-circuits `0/x`,
`x/1` and `x / (-1)` and otherwise performs digit-by-digit long division to
`significant` fractional positions with the final remainder scaled by the
denominator.  Unlike the kanon inline (`divisionCore`), the method has no
explicit zero-divisor branch: a zero divisor raises `ZeroDivisionError`
inside the `divmod` call.  The arithmetic operators inside are this
embedding's pipeline operators, as in the inlined form. -/
def divisionSpec (br : RadixBase) (ctx : PrecisionContext) (x y : BasedReal)
    (significant : ℕ) : Except Err BasedReal :=
  if x.floatVal br = 0 then .ok (BasedReal.zero significant)
  else if y.floatVal br = 1 then .ok x
  else if y.floatVal br = -1 then .ok x.neg
  else do
    let sign := x.sign * y.sign
    let numerator := x.absB
    let denominator := y.absB
    let qr ← numerator.divmodB br denominator
    let qRes ← addOp br ctx (BasedReal.zero significant) qr.1
    let lp ← truedivLoop br ctx denominator significant 0 qr.2
    let qRes2 ←
      if lp.2.1 then addOp br ctx qRes (fromFloat br 1 qRes.significant) else pure qRes
    .ok (BasedReal.make qRes2.left lp.1 sign (lp.2.2.decimal br / denominator.decimal br))

/-- `PreciseNumber.__truediv__` for two same-type operands. -/
def truedivOp (br : RadixBase) (ctx : PrecisionContext) (a b : BasedReal) :
    Except Err BasedReal :=
  opPipeline br ctx ctx.div (fun a b => a._truedivE br ctx b) a b

/-- The integer-exponent loop of `__pow__`: `res *= self` (`isMul`) or
`res /= self` repeatedly. -/
def powIntLoop (br : RadixBase) (ctx : PrecisionContext) (x : BasedReal) :
    ℕ → Bool → BasedReal → Except Err BasedReal
  | 0, _, res => .ok res
  | k + 1, isMul, res => do
    let res' ← if isMul then mulOp br ctx res x else truedivOp br ctx res x
    powIntLoop br ctx x k isMul res'

/-- `BasedReal.__pow__` with a rational exponent.  `pw` is an oracle for
the float computation `float(self) ** f_exp` (irrational in general, hence
not shallowly embeddable); the claims only concern branches taken before it
is used. -/
def powB (br : RadixBase) (ctx : PrecisionContext) (pw : ℚ → ℚ → ℚ) (x : BasedReal)
    (exponent : ℚ) : Except Err BasedReal :=
  if exponent = 0 then .ok (BasedReal.one x.significant)
  else if x.floatVal br = 0 then .ok x
  else if x.floatVal br < 0 ∧ (ratTrunc exponent : ℚ) ≠ exponent then .error .powDomain
  else do
    let intExp := ratTrunc exponent
    let res1 ← powIntLoop br ctx x intExp.natAbs (0 < intExp) (BasedReal.one x.significant)
    mulOp br ctx res1 (fromFloat br (pw (x.floatVal br) (exponent - intExp)) res1.significant)

/-- The Newton-iteration loop of `sqrt`: `res += self / res; res /= 2`. -/
def sqrtLoop (br : RadixBase) (ctx : PrecisionContext) (x : BasedReal) :
    ℕ → BasedReal → Except Err BasedReal
  | 0, res => .ok res
  | k + 1, res => do
    let d ← truedivOp br ctx x res
    let res1 ← addOp br ctx res d
    let res2 ← truedivOp br ctx res1 (fromFloat br 2 res1.significant)
    sqrtLoop br ctx x k res2

/-- `BasedReal.sqrt`.  `sq` is an oracle for `math.sqrt` on the float value
(irrational in general); a negative sign raises a domain error before
anything else, and a zero operand is returned unchanged. -/
def sqrtB (br : RadixBase) (ctx : PrecisionContext) (sq : ℚ → ℚ) (x : BasedReal)
    (iteration : Option ℕ) : Except Err BasedReal :=
  if x.sign < 0 then .error .sqrtDomain
  else if x.floatVal br = 0 then .ok x
  else do
    let iter ← match iteration with
      | some i => pure i
      | Option.none => do
        let s ← getSignificant ctx x x
        pure s.toNat
    if 1 ≤ x.floatVal br then
      sqrtLoop br ctx x iter (fromInt br (ratTrunc (sq (x.floatVal br))) 0)
    else
      sqrtLoop br ctx x 0 (fromFloat br (sq (x.floatVal br)) x.significant)

/-- The other operand of `BasedReal.__eq__`: a same-registry `BasedReal`, a
float-convertible plain number (idealized as `ℚ`), or an object that does
not support `float` (e.g. a string or `None`). -/
inductive PyObj where
  | based (b : BasedReal)
  | real (q : ℚ)
  | nonFloat

/-- `BasedReal.__eq__`: objects that do not support `float` compare unequal
without raising; `BasedReal` operands compare by exact decimal value;
anything else by float value. -/
def eqB (br : RadixBase) (x : BasedReal) (o : PyObj) : Bool :=
  match o with
  | .nonFloat => false
  | .based b => x.decimal br == b.decimal br
  | .real q => x.floatVal br == q

/-- `BasedReal.__ne__`: `not self == other`. -/
def neB (br : RadixBase) (x : BasedReal) (o : PyObj) : Bool :=
  !(eqB br x o)

/-- A digit argument to the public constructor: Python is dynamically typed,
so a digit slot may hold an `int` or a `float`. -/
inductive DigitArg where
  | int (z : ℤ)
  | float (q : ℚ)
  deriving DecidableEq

/-- Whether the argument is a float (triggers `IllegalFloatError`). -/
def DigitArg.isFloat : DigitArg → Bool
  | .float _ => true
  | .int _ => false

/-- Integer content of a digit argument (only used once floats have been
ruled out). -/
def DigitArg.toInt : DigitArg → ℤ
  | .float _ => 0
  | .int z => z

/-- The second loop of `__check_range`: first digit that is negative or not
below the radix at its position, together with that radix
(`IllegalBaseValueError(self.base, self.base[i - len(left) + 1], s)`). -/
def findBadDigit (br : RadixBase) (leftLen : ℕ) : List ℤ → ℕ → Option (ℕ × ℤ)
  | [], _ => none
  | d :: ds, i =>
    let radix := br.atPos ((i : ℤ) - leftLen + 1)
    if d < 0 ∨ (radix : ℤ) ≤ d then some (radix, d) else findBadDigit br leftLen ds (i + 1)

/-- `BasedReal.__check_range`: sign must be `±1`; a remainder outside
`[0,1)` raises unless it equals exactly 1 — in which case the source
computes `self += (self.one() * self.sign) >> self.significant`, but `+=`
only rebinds the local name, so the constructed object is left unchanged
and the check continues; any float digit raises `IllegalFloatError`; any
digit out of `[0, radix)` raises `IllegalBaseValueError`. -/
def checkRange (br : RadixBase) (left right : List DigitArg) (sign : ℤ) (rem : ℚ) :
    Option Err :=
  if sign ≠ -1 ∧ sign ≠ 1 then some .signError
  else if (¬ (0 ≤ rem ∧ rem < 1)) ∧ rem ≠ 1 then some .remainderError
  else if (left ++ right).any DigitArg.isFloat then some .illegalFloat
  else
    match findBadDigit br left.length ((left ++ right).map DigitArg.toInt) 0 with
    | some rd => some (.illegalBaseValue rd.1 rd.2)
    | none => none

/-- `BasedReal.__new__` on the two-digit-tuple argument form: run
`__check_range`, then strip leading zero integer digits (the
re-invocation of `__new__` after stripping re-checks digits whose
positions relative to the separator are unchanged, and is the identity);
note that a remainder of exactly 1 passes through unfolded. -/
def basedRealNew (br : RadixBase) (left right : List DigitArg) (sign : ℤ) (rem : ℚ) :
    Except Err BasedReal :=
  match checkRange br left right sign rem with
  | some e => .error e
  | none =>
    .ok (BasedReal.make (left.map (fun d => d.toInt.toNat))
      (right.map (fun d => d.toInt.toNat)) sign rem)

/-- The configuration portion of a `PrecisionContext` saved by
`set_precision` (`asdict(ctx)` without `stack` and `_records`). -/
structure SavedConfig where
  pmode : PMode
  tmode : TMode
  add : Option Alg
  sub : Option Alg
  mul : Option Alg
  div : Option Alg
  recording : Bool

/-- Save the full configuration of a context. -/
def saveConfig (c : PrecisionContext) : SavedConfig :=
  ⟨c.pmode, c.tmode, c.add, c.sub, c.mul, c.div, c.recording⟩

/-- A custom-algorithm argument to `mutate`: Python uses `False` as the
"leave unchanged" sentinel so that `None` can still be set explicitly. -/
inductive SlotArg where
  | keep
  | set (v : Option Alg)

/-- Registry check of `mutate`: `None` is always registered
(`_AI_REGISTRY = {None: "DEFAULT"}`); a function must be registered. -/
def slotOk (reg : Alg → Bool) : SlotArg → Bool
  | .keep => true
  | .set Option.none => true
  | .set (some f) => reg f

/-- Field update for one custom-algorithm slot. -/
def applySlot (cur : Option Alg) : SlotArg → Option Alg
  | .keep => cur
  | .set v => v

/-- The keyword arguments of `PrecisionContext.mutate` / `set_precision`. -/
structure MutateArgs where
  pmode : Option PMode
  tmode : Option TMode
  recording : Option Bool
  add : SlotArg
  sub : SlotArg
  mul : SlotArg
  div : SlotArg

/-- The field assignments of `mutate` (`None` keeps `pmode`/`recording`;
`tmode or self.tmode` keeps `tmode` since every mode value is truthy;
`False` keeps a custom-algorithm slot). -/
def mutateFields (c : PrecisionContext) (a : MutateArgs) : PrecisionContext :=
  { c with
    pmode := a.pmode.getD c.pmode
    tmode := a.tmode.getD c.tmode
    recording := a.recording.getD c.recording
    add := applySlot c.add a.add
    sub := applySlot c.sub a.sub
    mul := applySlot c.mul a.mul
    div := applySlot c.div a.div }

/-- `__post_init__` validity of the precision mode: a fixed integer
precision must be non-negative. -/
def pmodeInvalid : PMode → Bool
  | .fixed n => decide (n < 0)
  | _ => false

/-- `PrecisionContext.mutate`: the registry check runs first (fields
untouched on failure); then the fields are assigned; then `__post_init__`
re-validates (firing after the fields have been mutated).  Returns the
call's outcome together with the state of the context afterwards. -/
def mutateRun (reg : Alg → Bool) (c : PrecisionContext) (a : MutateArgs) :
    Except Err PrecisionContext × PrecisionContext :=
  if !(slotOk reg a.add && slotOk reg a.sub && slotOk reg a.mul && slotOk reg a.div) then
    (.error .notRegistered, c)
  else
    let c' := mutateFields c a
    if pmodeInvalid c'.pmode then (.error .negativePrecision, c') else (.ok c', c')

/-- The restore call of `set_precision`'s `finally` block:
`ctx.mutate(**current)` passes every saved field explicitly. -/
def fullArgs (s : SavedConfig) : MutateArgs :=
  ⟨some s.pmode, some s.tmode, some s.recording, .set s.add, .set s.sub, .set s.mul,
    .set s.div⟩

/-- Entry half of the `set_precision` context manager: save the full
configuration, increment the nesting counter, then mutate.  (If the mutate
raises, the saved configuration and incremented counter are still in place
for the `finally` block.) -/
def spEnter (reg : Alg → Bool) (c : PrecisionContext) (a : MutateArgs) :
    Except Err PrecisionContext × PrecisionContext × SavedConfig :=
  let saved := saveConfig c
  let c1 := { c with stack := c.stack + 1 }
  let r := mutateRun reg c1 a
  (r.1, r.2, saved)

/-- Exit half (the `finally` block): restore the full saved configuration
with `mutate(**current)`, then decrement the nesting counter. -/
def spExit (reg : Alg → Bool) (saved : SavedConfig) (t : PrecisionContext) :
    PrecisionContext :=
  let r := mutateRun reg t (fullArgs saved)
  { r.2 with stack := r.2.stack - 1 }

/-- A whole `with set_precision(...)` scope: enter, run the body (an
arbitrary transformation of the context; skipped when entry raised), and
always run the exit half. -/
def setPrecisionScope (reg : Alg → Bool) (c : PrecisionContext) (a : MutateArgs)
    (body : PrecisionContext → PrecisionContext) : PrecisionContext :=
  let e := spEnter reg c a
  let c3 := match e.1 with
    | .ok c2 => body c2
    | .error _ => e.2.1
  spExit reg e.2.2 c3

/-- `set_context`: wholesale replacement of the live context, rejected
whenever any `set_precision` scope is active (`stack > 0`). -/
def setContextB (cur new : PrecisionContext) : Except Err PrecisionContext :=
  if 0 < cur.stack then .error .contextNested
  else .ok { new with stack := 0 }

/-- Registration check for a whole slot value. -/
def slotReg (reg : Alg → Bool) : Option Alg → Bool
  | Option.none => true
  | some f => reg f

/-- A context whose configuration can be restored by `mutate(**saved)`:
all four slots registered and the precision mode valid. -/
def cfgOk (reg : Alg → Bool) (c : PrecisionContext) : Prop :=
  slotReg reg c.add = true ∧ slotReg reg c.sub = true ∧ slotReg reg c.mul = true ∧
    slotReg reg c.div = true ∧ pmodeInvalid c.pmode = false

/-! ### Basic facts about the embedding -/

theorem ratTrunc_zero : ratTrunc 0 = 0 := by simp [ratTrunc]

theorem ratTrunc_of_unit (q : ℚ) (h0 : 0 ≤ q) (h1 : q < 1) : ratTrunc q = 0 := by
  unfold ratTrunc
  rw [if_pos h0]
  exact Int.floor_eq_zero_iff.2 ⟨h0, h1⟩

theorem ratTrunc_of_negUnit (q : ℚ) (h0 : -1 < q) (h1 : q ≤ 0) : ratTrunc q = 0 := by
  unfold ratTrunc
  rcases eq_or_lt_of_le h1 with h | h
  · subst h; simp
  · rw [if_neg (by exact not_le.2 h)]
    exact Int.ceil_eq_zero_iff.2 (Set.mem_Ioc.2 ⟨h0, h1⟩)

theorem loopGet_mem (l : List ℕ) (h : l ≠ []) (i : ℤ) : loopGet l i ∈ l := by
  unfold loopGet
  rw [if_neg (by simpa using h)]
  split_ifs with h1 h2 h3
  · cases l with
    | nil => exact absurd rfl h
    | cons a as =>
      rw [List.getLastD_eq_getLast?]
      rw [List.getLast?_eq_getLast (a :: as) (by simp)]
      exact List.getLast_mem _
  · cases l with
    | nil => exact absurd rfl h
    | cons a as => exact List.mem_cons_self a as
  · rw [List.getD_eq_getElem l 0 (by omega)]
    exact List.getElem_mem _
  · rw [List.getD_eq_getElem l 0 (by omega)]
    exact List.getElem_mem _

/-- Unpacked base validity. -/
theorem base_valid_iff (br : RadixBase) :
    br.validB = true ↔
      br.left ≠ [] ∧ br.right ≠ [] ∧ ∀ r ∈ br.left ++ br.right, 2 ≤ r := by
  simp only [RadixBase.validB, Bool.and_eq_true, Bool.not_eq_true', List.isEmpty_eq_false,
    List.all_eq_true, decide_eq_true_eq, List.mem_append]
  tauto

theorem intRadix_ge2 (br : RadixBase) (h : br.validB = true) (j : ℕ) :
    2 ≤ br.intRadix j := by
  obtain ⟨h1, _, h3⟩ := (base_valid_iff br).1 h
  exact h3 _ (List.mem_append_left _ (loopGet_mem br.left h1 _))

theorem fracRadix_ge2 (br : RadixBase) (h : br.validB = true) (i : ℕ) :
    2 ≤ br.fracRadix i := by
  obtain ⟨_, h2, h3⟩ := (base_valid_iff br).1 h
  exact h3 _ (List.mem_append_right _ (loopGet_mem br.right h2 _))

theorem atPos_ge2 (br : RadixBase) (h : br.validB = true) (k : ℤ) :
    2 ≤ br.atPos k := by
  obtain ⟨h1, h2, h3⟩ := (base_valid_iff br).1 h
  unfold RadixBase.atPos
  split_ifs
  · exact h3 _ (List.mem_append_left _ (loopGet_mem br.left h1 _))
  · exact h3 _ (List.mem_append_right _ (loopGet_mem br.right h2 _))

theorem fracFactor_pos (br : RadixBase) (h : br.validB = true) (n : ℕ) :
    0 < br.fracFactor n := by
  induction n with
  | zero => exact Nat.one_pos
  | succ k ih =>
    exact Nat.mul_pos ih (lt_of_lt_of_le (by norm_num) (fracRadix_ge2 br h k))

theorem fracSumAux_nonneg (br : RadixBase) (l : List ℕ) (i : ℕ) :
    0 ≤ fracSumAux br l i := by
  induction l generalizing i with
  | nil => simp [fracSumAux]
  | cons d ds ih =>
    unfold fracSumAux
    have : (0 : ℚ) ≤ (d : ℚ) / br.fracFactor (i + 1) :=
      div_nonneg (by positivity) (by positivity)
    linarith [ih (i + 1)]

/-- The magnitude part of `decimal` is non-negative whenever the remainder
is. -/
theorem decimal_eq_sign_mul (br : RadixBase) (x : BasedReal) :
    x.decimal br = x.sign * (((x.intVal br).natAbs : ℚ) + fracSumAux br x.right 0
      + x.remainder / br.fracFactor x.significant) := rfl

theorem decimal_mag_nonneg (br : RadixBase) (x : BasedReal) (hr : 0 ≤ x.remainder) :
    0 ≤ ((x.intVal br).natAbs : ℚ) + fracSumAux br x.right 0
      + x.remainder / br.fracFactor x.significant := by
  have h1 : (0 : ℚ) ≤ ((x.intVal br).natAbs : ℚ) := by positivity
  have h2 := fracSumAux_nonneg br x.right 0
  have h3 : (0 : ℚ) ≤ x.remainder / br.fracFactor x.significant :=
    div_nonneg hr (by positivity)
  linarith

/-- Normalization and sign/remainder part of validity. -/
def seminorm (x : BasedReal) : Prop :=
  normLeft x.left = x.left ∧ (x.sign = 1 ∨ x.sign = -1) ∧
    0 ≤ x.remainder ∧ x.remainder < 1

theorem normLeft_of_norm (l : List ℕ) (h : l ≠ []) (h2 : l.length = 1 ∨ l.headD 0 ≠ 0) :
    normLeft l = l := by
  unfold normLeft
  rcases h2 with h2 | h2
  · cases l with
    | nil => simp at h
    | cons a as =>
      have : as = [] := by simpa using h2
      subst this
      simp
  · cases l with
    | nil => simp at h
    | cons a as =>
      have ha : a ≠ 0 := by simpa using h2
      cases as with
      | nil => simp
      | cons b bs =>
        have hbeq : (a == 0) = false := by simpa using ha
        simp [List.takeWhile, hbeq]

theorem validB_seminorm (br : RadixBase) (x : BasedReal) (h : x.validB br = true) :
    seminorm x := by
  have h' := h
  unfold BasedReal.validB at h'
  simp only [Bool.and_eq_true, decide_eq_true_eq, Bool.or_eq_true, beq_iff_eq,
    bne_iff_ne, List.isEmpty_iff, Bool.not_eq_true'] at h'
  obtain ⟨⟨⟨⟨⟨hs, hr0⟩, hr1⟩, hne⟩, hnorm⟩, _⟩ := h'
  refine ⟨?_, hs, hr0, hr1⟩
  apply normLeft_of_norm _ ?_ hnorm
  intro hcon
  rw [hcon] at hne
  simp at hne

theorem sign_of_decimal_pos (br : RadixBase) (x : BasedReal) (hx : seminorm x)
    (hd : 0 < x.decimal br) : x.sign = 1 := by
  rcases hx.2.1 with h | h
  · exact h
  · exfalso
    rw [decimal_eq_sign_mul, h] at hd
    have := decimal_mag_nonneg br x hx.2.2.1
    nlinarith

theorem sign_of_decimal_neg (br : RadixBase) (x : BasedReal) (hx : seminorm x)
    (hd : x.decimal br < 0) : x.sign = -1 := by
  rcases hx.2.1 with h | h
  · exfalso
    rw [decimal_eq_sign_mul, h] at hd
    have := decimal_mag_nonneg br x hx.2.2.1
    nlinarith
  · exact h

theorem neg_fields (x : BasedReal) (hx : normLeft x.left = x.left) :
    x.neg = ⟨x.left, x.right, -x.sign, x.remainder⟩ := by
  unfold BasedReal.neg BasedReal.make
  rw [hx]

theorem decimal_neg (br : RadixBase) (x : BasedReal) (hx : normLeft x.left = x.left) :
    x.neg.decimal br = -(x.decimal br) := by
  rw [neg_fields x hx]
  unfold BasedReal.decimal BasedReal.intVal BasedReal.significant
  have h : (-(x.sign * sumIntDigits br x.left.reverse 0)).natAbs
      = (x.sign * sumIntDigits br x.left.reverse 0).natAbs := Int.natAbs_neg _
  simp only [neg_mul, h]
  push_cast
  ring

theorem absB_decimal (br : RadixBase) (x : BasedReal) (hx : seminorm x) :
    x.absB.decimal br = |x.decimal br| := by
  unfold BasedReal.absB
  rcases hx.2.1 with h | h
  · rw [if_pos (by rw [h]; norm_num)]
    rw [abs_of_nonneg]
    rw [decimal_eq_sign_mul, h]
    have := decimal_mag_nonneg br x hx.2.2.1
    linarith
  · rw [if_neg (by rw [h]; norm_num)]
    rw [decimal_neg br x hx.1, abs_of_nonpos]
    rw [decimal_eq_sign_mul, h]
    have := decimal_mag_nonneg br x hx.2.2.1
    nlinarith

theorem fracSumAux_replicate_zero (br : RadixBase) (k i : ℕ) :
    fracSumAux br (List.replicate k 0) i = 0 := by
  induction k generalizing i with
  | zero => rfl
  | succ n ih => simp [List.replicate, fracSumAux, ih]

theorem zero_decimal (br : RadixBase) (s : ℕ) : (BasedReal.zero s).decimal br = 0 := by
  unfold BasedReal.zero BasedReal.make BasedReal.decimal BasedReal.intVal
  simp [normLeft, fracSumAux_replicate_zero, sumIntDigits, BasedReal.significant]

theorem one_decimal (br : RadixBase) (s : ℕ) : (BasedReal.one s).decimal br = 1 := by
  unfold BasedReal.one BasedReal.make BasedReal.decimal BasedReal.intVal
  simp [normLeft, fracSumAux_replicate_zero, sumIntDigits, BasedReal.significant,
    RadixBase.intFactor]

theorem zero_significant (s : ℕ) : (BasedReal.zero s).significant = s := by
  simp [BasedReal.zero, BasedReal.make, BasedReal.significant]

theorem one_significant (s : ℕ) : (BasedReal.one s).significant = s := by
  simp [BasedReal.one, BasedReal.make, BasedReal.significant]

theorem fromDecLoop_zero (br : RadixBase) (k i : ℕ) :
    fromDecLoop br k i 0 = (List.replicate k 0, 0) := by
  induction k generalizing i with
  | zero => rfl
  | succ n ih =>
    unfold fromDecLoop
    simp [ratTrunc_zero, ih, List.replicate]

theorem resize_self (br : RadixBase) (x : BasedReal) : x.resize br x.significant = x := by
  unfold BasedReal.resize
  simp

theorem fromInt_zero (br : RadixBase) (s : ℕ) :
    fromInt br 0 s = BasedReal.zero s := by
  unfold fromInt fromIntPos
  norm_num
  unfold fromIntLoop BasedReal.zero BasedReal.make normLeft
  simp

theorem zero_intVal (br : RadixBase) (k : ℕ) : (BasedReal.zero k).intVal br = 0 := by
  simp [BasedReal.intVal, BasedReal.zero, BasedReal.make, normLeft, sumIntDigits]

theorem fromDecimal_zero (br : RadixBase) (k : ℕ) :
    fromDecimal br 0 k = ⟨[0], List.replicate k 0, 1, 0⟩ := by
  unfold fromDecimal
  rw [ratTrunc_zero, fromInt_zero]
  simp only [zero_intVal, Int.cast_zero, sub_zero, zero_sub, abs_zero, abs_neg,
    fromDecLoop_zero]
  rw [if_neg (by norm_num)]
  simp [BasedReal.zero, BasedReal.make, normLeft]

theorem resize_zero (br : RadixBase) (s : ℕ) :
    (BasedReal.zero 0).resize br s = BasedReal.zero s := by
  rcases Nat.eq_zero_or_pos s with h | h
  · subst h
    unfold BasedReal.resize
    rw [if_pos (by simp [zero_significant])]
  · unfold BasedReal.resize
    rw [if_neg (by simp [zero_significant]; omega),
      if_pos (by simp [zero_significant]; omega)]
    have h1 : ((BasedReal.zero 0).sign : ℚ) * (BasedReal.zero 0).remainder = 0 := by
      simp [BasedReal.zero, BasedReal.make]
    rw [h1, fromDecimal_zero]
    simp [BasedReal.zero, BasedReal.make, normLeft, zero_significant, BasedReal.significant]

theorem fromFloat_zero (br : RadixBase) (s : ℕ) :
    fromFloat br 0 s = BasedReal.zero s := by
  unfold fromFloat
  rw [ratTrunc_zero, fromInt_zero]
  simp only [zero_intVal, Int.cast_zero, sub_zero, zero_sub, abs_zero, abs_neg]
  norm_num [BasedReal.zero, BasedReal.make, normLeft]

theorem ratTrunc_one : ratTrunc 1 = 1 := by simp [ratTrunc]

theorem fromInt_one (br : RadixBase) (hv : br.validB = true) (s : ℕ) :
    fromInt br 1 s = BasedReal.one s := by
  have h2 := intRadix_ge2 br hv 0
  unfold fromInt fromIntPos fromIntPos
  rw [if_neg (by norm_num)]
  simp only [Int.natAbs_one]
  rw [if_pos (by norm_num), if_neg (by omega)]
  unfold fromIntLoop fromIntLoop
  have hd : br.intRadix 0 / br.intRadix 0 = 1 := Nat.div_self (by omega)
  simp only [one_mul, hd]
  simp [BasedReal.one, BasedReal.make]

theorem one_intVal (br : RadixBase) (k : ℕ) : (BasedReal.one k).intVal br = 1 := by
  simp [BasedReal.intVal, BasedReal.one, BasedReal.make, normLeft, sumIntDigits,
    RadixBase.intFactor]

theorem fromFloat_one (br : RadixBase) (hv : br.validB = true) (s : ℕ) :
    fromFloat br 1 s = BasedReal.one s := by
  unfold fromFloat
  rw [ratTrunc_one, fromInt_one br hv]
  simp only [one_intVal, Int.cast_one, sub_self, abs_zero]
  norm_num [BasedReal.one, BasedReal.make, normLeft]

/-- Decimal value of a successful result. -/
def valueD (br : RadixBase) (e : Except Err BasedReal) : Option ℚ :=
  match e with
  | .ok v => some (v.decimal br)
  | .error _ => none

theorem zipWith_add_replicate_zero (L : List ℤ) :
    List.zipWith (· + ·) L (List.replicate L.length 0) = L := by
  induction L with
  | nil => rfl
  | cons a l ih => simp [List.replicate, ih]

theorem normLeft_cons_zero (l : List ℕ) (h : l ≠ [])
    (hh : l.length = 1 ∨ l.headD 0 ≠ 0) : normLeft (0 :: l) = l := by
  cases l with
  | nil => exact absurd rfl h
  | cons a as =>
    cases as with
    | nil =>
      unfold normLeft
      simp [List.takeWhile]
    | cons b bs =>
      have ha : a ≠ 0 := by
        rcases hh with hh | hh
        · simp at hh
        · simpa using hh
      have hbeq : (a == 0) = false := by simpa using ha
      unfold normLeft
      simp [List.takeWhile, hbeq]

theorem carryLoop_id (br : RadixBase) (maxright : ℤ) :
    ∀ (l : List ℤ) (i : ℤ),
      (∀ (j : ℕ) (h : j < l.length),
        0 ≤ l.get ⟨j, h⟩ ∧ l.get ⟨j, h⟩ < br.atPos (maxright - (i + j))) →
      carryLoop br maxright i l = some l := by
  intro l
  induction l with
  | nil => intro i _; simp [carryLoop]
  | cons r rest ih =>
    intro i hb
    have h0 := hb 0 (by simp)
    simp only [List.get, List.length_cons] at h0
    unfold carryLoop
    rw [if_neg]
    · rw [ih (i + 1) ?_]
      intro j hj
      have := hb (j + 1) (by simpa using Nat.succ_lt_succ hj)
      simp only [List.get] at this ⊢
      convert this using 3
      push_cast
      ring
    · push_neg
      refine ⟨h0.1, ?_⟩
      have := h0.2
      simpa using this

theorem digitsInRange_get (br : RadixBase) (L : ℕ) :
    ∀ (l : List ℕ) (i : ℕ), digitsInRange br L l i = true →
      ∀ (j : ℕ) (h : j < l.length),
        l.get ⟨j, h⟩ < br.atPos (((i + j : ℕ) : ℤ) - L + 1) := by
  intro l
  induction l with
  | nil => intro i _ j h; simp at h
  | cons d ds ih =>
    intro i hr j hj
    unfold digitsInRange at hr
    simp only [Bool.and_eq_true, decide_eq_true_eq] at hr
    cases j with
    | zero => simpa using hr.1
    | succ k =>
      have := ih (i + 1) hr.2 k (by simpa using Nat.lt_of_succ_lt_succ hj)
      simp only [List.get] at this ⊢
      convert this using 4
      push_cast
      ring

theorem validB_digits (br : RadixBase) (x : BasedReal) (h : x.validB br = true) :
    digitsInRange br x.left.length (x.left ++ x.right) 0 = true := by
  unfold BasedReal.validB at h
  simp only [Bool.and_eq_true] at h
  exact h.2

theorem validB_left_ne (br : RadixBase) (x : BasedReal) (h : x.validB br = true) :
    x.left ≠ [] := by
  unfold BasedReal.validB at h
  simp only [Bool.and_eq_true, Bool.not_eq_true', List.isEmpty_eq_false] at h
  exact h.1.1.2

theorem validB_left_norm (br : RadixBase) (x : BasedReal) (h : x.validB br = true) :
    x.left.length = 1 ∨ x.left.headD 0 ≠ 0 := by
  unfold BasedReal.validB at h
  simp only [Bool.and_eq_true, Bool.or_eq_true, beq_iff_eq, bne_iff_ne] at h
  exact h.1.2

/-- Digit list cast to integers. -/
def intCast (l : List ℕ) : List ℤ := l.map (fun d : ℕ => (d : ℤ))

theorem signedRev_one (l r : List ℕ) (rem : ℚ) :
    signedRev ⟨l, r, 1, rem⟩ = intCast ((l ++ r).reverse) := by
  unfold signedRev intCast
  simp only [one_mul]

theorem signedRev_zero_digits (σ : ℤ) (s : ℕ) :
    signedRev ⟨[0], List.replicate s 0, σ, 0⟩ = List.replicate (s + 1) 0 := by
  unfold signedRev
  have h1 : (([0] ++ List.replicate s 0) : List ℕ) = List.replicate (s + 1) 0 := by
    rw [List.replicate_succ]
    rfl
  rw [h1, List.reverse_replicate, List.map_replicate]
  simp

theorem intCast_length (l : List ℕ) : (intCast l).length = l.length := by
  simp [intCast]

theorem add_zero_right (br : RadixBase) (hv : br.validB = true) (x : BasedReal)
    (hx : x.validB br = true) (hd : x.decimal br ≠ 0) :
    BasedReal._add br x (BasedReal.zero x.significant) = some x := by
  obtain ⟨hnorm, hsgn1, hr0, hr1⟩ := validB_seminorm br x hx
  have hlne := validB_left_ne br x hx
  have hL1 : 1 ≤ x.left.length := by
    cases hc : x.left with
    | nil => exact absurd hc hlne
    | cons a as => simp
  have hz : BasedReal.zero x.significant
      = ⟨[0], List.replicate x.significant 0, 1, 0⟩ := by
    simp [BasedReal.zero, BasedReal.make, normLeft]
  have hcancel : ¬ (x.decimal br = -((BasedReal.zero x.significant).decimal br)) := by
    rw [zero_decimal]
    simpa using hd
  -- the two aligned operands and the sign of the result
  have hzsig : (⟨[0], List.replicate x.significant 0, 1, 0⟩ : BasedReal).significant
      = x.significant := by simp [BasedReal.significant]
  have hrz : (⟨[0], List.replicate x.significant 0, 1, 0⟩ : BasedReal).resize br
      x.significant = ⟨[0], List.replicate x.significant 0, 1, 0⟩ := by
    have h := resize_self br (⟨[0], List.replicate x.significant 0, 1, 0⟩ : BasedReal)
    rw [hzsig] at h
    exact h
  have hrx : x.resize br x.significant = x := resize_self br x
  have habs0 : (⟨[0], List.replicate x.significant 0, 1, 0⟩ : BasedReal).absB.decimal br
      = 0 := by
    unfold BasedReal.absB
    rw [if_pos (by norm_num), ← hz, zero_decimal]
  have habsx : x.absB.decimal br = |x.decimal br| :=
    absB_decimal br x ⟨hnorm, hsgn1, hr0, hr1⟩
  have hva : (if x.sign < 0 then x.neg else x)
      = ⟨x.left, x.right, 1, x.remainder⟩ := by
    rcases hsgn1 with h | h
    · rw [if_neg (by rw [h]; norm_num)]
      cases x
      simp_all
    · rw [if_pos (by rw [h]; norm_num), neg_fields x hnorm, h]
      norm_num
  have hvb : (if x.sign < 0
        then (⟨[0], List.replicate x.significant 0, 1, 0⟩ : BasedReal).neg
        else (⟨[0], List.replicate x.significant 0, 1, 0⟩ : BasedReal))
      = ⟨[0], List.replicate x.significant 0, x.sign, 0⟩ := by
    rcases hsgn1 with h | h
    · rw [if_neg (by rw [h]; norm_num), h]
    · rw [if_pos (by rw [h]; norm_num), h]
      unfold BasedReal.neg BasedReal.make
      norm_num [normLeft]
  have hsrA := signedRev_one x.left x.right x.remainder
  have hsrB := signedRev_zero_digits x.sign x.significant
  have hlenA : (intCast ((x.left ++ x.right).reverse)).length
      = x.left.length + x.significant := by
    rw [intCast_length]
    simp [BasedReal.significant, Nat.add_comm]
  have hpadA : padTo (intCast ((x.left ++ x.right).reverse))
      (x.left.length + x.significant) = intCast ((x.left ++ x.right).reverse) := by
    unfold padTo
    rw [hlenA]
    simp
  have hpadB : padTo (List.replicate (x.significant + 1) 0)
      (x.left.length + x.significant)
      = List.replicate (x.left.length + x.significant) 0 := by
    unfold padTo
    rw [List.length_replicate, ← List.replicate_add]
    congr 1
    omega
  have hzip : List.zipWith (· + ·) (intCast ((x.left ++ x.right).reverse))
      (List.replicate (x.left.length + x.significant) 0)
      = intCast ((x.left ++ x.right).reverse) := by
    conv_lhs => rw [← hlenA]
    exact zipWith_add_replicate_zero _
  have habscond : (0 : ℚ) < |x.decimal br| := abs_pos.2 hd
  have htr : ratTrunc x.remainder = 0 := ratTrunc_of_unit _ hr0 hr1
  have hcb : ∀ (j : ℕ) (hh : j < (intCast ((x.left ++ x.right).reverse) ++ [0]).length),
      0 ≤ (intCast ((x.left ++ x.right).reverse) ++ [0]).get ⟨j, hh⟩ ∧
        (intCast ((x.left ++ x.right).reverse) ++ [0]).get ⟨j, hh⟩
          < ((br.atPos ((x.significant : ℤ) - ((0 : ℤ) + j))) : ℤ) := by
    intro j hh
    have hn : (x.left ++ x.right).length = x.left.length + x.significant := by
      simp [BasedReal.significant]
    rw [List.get_eq_getElem]
    by_cases hjA : j < x.left.length + x.significant
    · have hjA' : j < (intCast ((x.left ++ x.right).reverse)).length := by
        rw [hlenA]; exact hjA
      rw [List.getElem_append_left hjA']
      unfold intCast
      rw [List.getElem_map, List.getElem_reverse]
      refine ⟨by positivity, ?_⟩
      have hk : (x.left ++ x.right).length - 1 - j < (x.left ++ x.right).length := by
        omega
      have hb := digitsInRange_get br x.left.length (x.left ++ x.right) 0
        (validB_digits br x hx) ((x.left ++ x.right).length - 1 - j) hk
      rw [List.get_eq_getElem] at hb
      have harg : (((0 + ((x.left ++ x.right).length - 1 - j) : ℕ) : ℤ)
          - x.left.length + 1) = ((x.significant : ℤ) - ((0 : ℤ) + j)) := by
        omega
      rw [harg] at hb
      exact_mod_cast hb
    · have hjlen : j < (intCast ((x.left ++ x.right).reverse)).length + 1 := by
        rw [List.length_append] at hh
        simpa only [List.length_cons, List.length_nil] using hh
      have hje : j = (intCast ((x.left ++ x.right).reverse)).length := by
        rw [hlenA] at hjlen ⊢
        omega
      subst hje
      rw [List.getElem_append_right (le_refl _)]
      simp only [Nat.sub_self, List.getElem_cons_zero]
      refine ⟨le_refl 0, ?_⟩
      have := atPos_ge2 br hv ((x.significant : ℤ) - ((0 : ℤ) + (intCast ((x.left ++ x.right).reverse)).length))
      omega
  have hcarry : carryLoop br (x.significant : ℤ) 0
      (intCast ((x.left ++ x.right).reverse) ++ [0])
      = some (intCast ((x.left ++ x.right).reverse) ++ [0]) :=
    carryLoop_id br _ _ 0 hcb
  have hAne : intCast ((x.left ++ x.right).reverse) ≠ [] := by
    intro hcon
    rw [hcon] at hlenA
    simp only [List.length_nil] at hlenA
    omega
  obtain ⟨a0, A', hA⟩ := List.exists_cons_of_ne_nil hAne
  rw [hA] at hsrA hcarry
  rw [List.cons_append] at hcarry
  have hpadA' : padTo (a0 :: A') (x.left.length + x.significant) = a0 :: A' := by
    rw [← hA]
    exact hpadA
  have hzip' : List.zipWith (· + ·) (a0 :: A')
      (List.replicate (x.left.length + x.significant) 0) = a0 :: A' := by
    rw [← hA]
    exact hzip
  have hrlen : x.right.length = x.significant := rfl
  have hmaxlen : max (x.left.length + x.significant) (1 + x.significant)
      = x.left.length + x.significant := by omega
  have hml : max x.left.length 1 = x.left.length := by omega
  have hfinal : (((a0 :: (A' ++ [0])).reverse).map Int.natAbs)
      = 0 :: (x.left ++ x.right) := by
    rw [← List.cons_append, ← hA]
    rw [List.reverse_append]
    unfold intCast
    rw [List.map_reverse, List.reverse_reverse, List.map_append, List.map_map]
    have hid : ∀ (l : List ℕ), l.map (Int.natAbs ∘ fun d : ℕ => (d : ℤ)) = l := by
      intro l
      induction l with
      | nil => rfl
      | cons b bs ih => simp only [List.map_cons, ih, Function.comp_apply, Int.natAbs_ofNat]
    simp [hid]
  have htake : (0 :: (x.left ++ x.right)).take (x.left.length + 1) = 0 :: x.left := by
    rw [List.take_succ_cons, List.take_left]
  have hdrop : (0 :: (x.left ++ x.right)).drop (x.left.length + 1) = x.right := by
    rw [List.drop_succ_cons, List.drop_left]
  have hmk : BasedReal.make (0 :: x.left) x.right x.sign |x.remainder| = x := by
    unfold BasedReal.make
    rw [normLeft_cons_zero x.left hlne (validB_left_norm br x hx), abs_of_nonneg hr0]
  have hxeta : (⟨x.left, x.right, x.sign, x.remainder⟩ : BasedReal) = x := rfl
  rw [hz] at hcancel
  rw [hz]
  unfold BasedReal._add
  rw [if_neg hcancel]
  simp only [addBody, hzsig, max_self, hrx, hrz, habs0, habsx, habscond, ite_true, hva, hvb,
    hsrA, hsrB, List.length_cons, List.length_nil, List.length_replicate,
    List.length_append, hrlen, hmaxlen, hml, hpadA', hpadB, hzip', Int.cast_one,
    mul_one, zero_mul, add_zero, hr0, htr, Int.cast_zero, sub_zero,
    List.cons_append, hcarry, hfinal, htake, hdrop, hmk, hxeta]


/-- Uniform fractional radices (true for the sexagesimal, historical,
historical-decimal and integer-and-sexagesimal bases). -/
def uniformFrac (br : RadixBase) : Prop :=
  ∀ i : ℕ, br.fracRadix i = br.fracRadix 0

theorem fracFactor_uniform (br : RadixBase) (hu : uniformFrac br) (n : ℕ) :
    br.fracFactor n = (br.fracRadix 0) ^ n := by
  induction n with
  | zero => rfl
  | succ k ih =>
    unfold RadixBase.fracFactor
    rw [ih, hu k, pow_succ]

theorem resize_sign (br : RadixBase) (x : BasedReal) (s : ℕ) :
    (x.resize br s).sign = x.sign := by
  unfold BasedReal.resize
  split_ifs <;> rfl

/-- Low-order weighted digit sum: `lowSum ρ [d₀, d₁, …] = d₀/ρ + d₁/ρ² + …`. -/
def lowSum (ρ : ℚ) : List ℕ → ℚ
  | [] => 0
  | d :: ds => ((d : ℚ) + lowSum ρ ds) / ρ

theorem fromDecLoop_length (br : RadixBase) :
    ∀ (k i : ℕ) (v : ℚ), (fromDecLoop br k i v).1.length = k := by
  intro k
  induction k with
  | zero => intro i v; rfl
  | succ n ih => intro i v; simp [fromDecLoop, ih]

theorem fromDecLoop_inv (br : RadixBase) :
    ∀ (k i : ℕ) (v : ℚ), 0 ≤ v → v < 1 →
      0 ≤ (fromDecLoop br k i v).2 ∧ (fromDecLoop br k i v).2 < 1 := by
  intro k
  induction k with
  | zero => intro i v h0 h1; exact ⟨h0, h1⟩
  | succ n ih =>
    intro i v h0 h1
    unfold fromDecLoop
    have hv' : (0 : ℚ) ≤ v * br.fracRadix i := by positivity
    have htr : ratTrunc (v * br.fracRadix i) = ⌊v * (br.fracRadix i : ℚ)⌋ := by
      unfold ratTrunc
      rw [if_pos hv']
    simp only [htr]
    refine ih (i + 1) _ ?_ ?_
    · have h := Int.fract_nonneg (v * (br.fracRadix i : ℚ))
      unfold Int.fract at h
      exact h
    · have h := Int.fract_lt_one (v * (br.fracRadix i : ℚ))
      unfold Int.fract at h
      exact h

theorem fromDecLoop_value (br : RadixBase) (hv : br.validB = true) (hu : uniformFrac br) :
    ∀ (k i : ℕ) (v : ℚ), 0 ≤ v →
      lowSum (br.fracRadix 0) (fromDecLoop br k i v).1
        + (fromDecLoop br k i v).2 / (br.fracRadix 0 : ℚ) ^ k = v := by
  intro k
  induction k with
  | zero =>
    intro i v h0
    simp [fromDecLoop, lowSum]
  | succ n ih =>
    intro i v h0
    have hρ : (0 : ℚ) < (br.fracRadix 0 : ℚ) := by
      have := fracRadix_ge2 br hv 0
      exact_mod_cast lt_of_lt_of_le (by norm_num) this
    unfold fromDecLoop
    have hv' : (0 : ℚ) ≤ v * br.fracRadix i := by positivity
    have htr : ratTrunc (v * br.fracRadix i) = ⌊v * (br.fracRadix i : ℚ)⌋ := by
      unfold ratTrunc
      rw [if_pos hv']
    have hfl : (0 : ℤ) ≤ ⌊v * (br.fracRadix i : ℚ)⌋ := Int.floor_nonneg.2 hv'
    have key := ih (i + 1) (v * br.fracRadix i - ⌊v * (br.fracRadix i : ℚ)⌋)
      (by
        have h := Int.fract_nonneg (v * (br.fracRadix i : ℚ))
        unfold Int.fract at h
        exact h)
    simp only [htr, lowSum]
    have hcast : ((⌊v * (br.fracRadix i : ℚ)⌋.toNat : ℕ) : ℚ)
        = ((⌊v * (br.fracRadix i : ℚ)⌋ : ℤ) : ℚ) := by
      exact_mod_cast congrArg (fun z : ℤ => (z : ℚ)) (Int.toNat_of_nonneg hfl)
    rw [hcast, hu i]
    rw [hu i] at key
    have hρ0 : (br.fracRadix 0 : ℚ) ≠ 0 := ne_of_gt hρ
    have hρn0 : ((br.fracRadix 0 : ℚ)) ^ n ≠ 0 := pow_ne_zero n hρ0
    set ρ : ℚ := (br.fracRadix 0 : ℚ)
    set fl : ℚ := ((⌊v * ρ⌋ : ℤ) : ℚ)
    set L : ℚ := lowSum ρ (fromDecLoop br n (i + 1) (v * ρ - fl)).1
    set R2 : ℚ := (fromDecLoop br n (i + 1) (v * ρ - fl)).2
    have hsplit : (fl + L) / ρ + R2 / ρ ^ (n + 1) = (fl + (L + R2 / ρ ^ n)) / ρ := by
      rw [pow_succ]
      field_simp
      ring
    rw [hsplit, key]
    field_simp

theorem fracSumAux_append (br : RadixBase) :
    ∀ (l1 l2 : List ℕ) (i : ℕ),
      fracSumAux br (l1 ++ l2) i = fracSumAux br l1 i + fracSumAux br l2 (i + l1.length) := by
  intro l1
  induction l1 with
  | nil => intro l2 i; simp [fracSumAux]
  | cons d ds ih =>
    intro l2 i
    simp only [List.cons_append, fracSumAux, List.length_cons, List.append_eq]
    rw [ih l2 (i + 1)]
    rw [show i + 1 + ds.length = i + (ds.length + 1) by omega]
    ring

theorem fracSumAux_lowSum (br : RadixBase) (hv : br.validB = true) (hu : uniformFrac br) :
    ∀ (l : List ℕ) (i : ℕ),
      fracSumAux br l i = lowSum (br.fracRadix 0 : ℚ) l / (br.fracRadix 0 : ℚ) ^ i := by
  have hρ : (0 : ℚ) < (br.fracRadix 0 : ℚ) := by
    have := fracRadix_ge2 br hv 0
    exact_mod_cast lt_of_lt_of_le (by norm_num) this
  have hρ0 : (br.fracRadix 0 : ℚ) ≠ 0 := ne_of_gt hρ
  intro l
  induction l with
  | nil => intro i; simp [fracSumAux, lowSum]
  | cons d ds ih =>
    intro i
    unfold fracSumAux lowSum
    rw [ih (i + 1), fracFactor_uniform br hu (i + 1), pow_succ]
    field_simp
    ring

theorem fromDecimal_small (br : RadixBase) (dec : ℚ) (h1 : -1 < dec) (h2 : dec < 1) (k : ℕ) :
    fromDecimal br dec k
      = ⟨[0], (fromDecLoop br k 0 |dec|).1, if dec < 0 then -1 else 1,
          (fromDecLoop br k 0 |dec|).2⟩ := by
  unfold fromDecimal
  have htr : ratTrunc dec = 0 := by
    rcases le_or_lt 0 dec with h | h
    · exact ratTrunc_of_unit dec h h2
    · exact ratTrunc_of_negUnit dec h1 (le_of_lt h)
  simp only [htr, fromInt_zero, zero_intVal, Int.cast_zero, sub_zero]
  simp [BasedReal.make, BasedReal.zero, normLeft]

theorem resize_grow_fields (br : RadixBase) (x : BasedReal) (hsem : seminorm x)
    (s : ℕ) (hs : x.significant < s) :
    x.resize br s
      = ⟨x.left, x.right ++ (fromDecLoop br (s - x.significant) 0 x.remainder).1,
          x.sign, (fromDecLoop br (s - x.significant) 0 x.remainder).2⟩ := by
  obtain ⟨hn, hsg, hr0, hr1⟩ := hsem
  unfold BasedReal.resize
  rw [if_neg (by omega), if_pos hs]
  have h1 : (-1 : ℚ) < (x.sign : ℚ) * x.remainder := by
    rcases hsg with h | h <;> rw [h] <;> push_cast <;> nlinarith
  have h2 : (x.sign : ℚ) * x.remainder < 1 := by
    rcases hsg with h | h <;> rw [h] <;> push_cast <;> nlinarith
  have habs : |(x.sign : ℚ) * x.remainder| = x.remainder := by
    rcases hsg with h | h <;> rw [h]
    · push_cast
      rw [one_mul]
      exact abs_of_nonneg hr0
    · push_cast
      rw [neg_one_mul, abs_neg]
      exact abs_of_nonneg hr0
  rw [fromDecimal_small br _ h1 h2, habs]
  unfold BasedReal.make
  rw [hn]

theorem resize_decimal_uniform (br : RadixBase) (hv : br.validB = true) (hu : uniformFrac br)
    (x : BasedReal) (hsem : seminorm x) (s : ℕ) (hs : x.significant ≤ s) :
    (x.resize br s).decimal br = x.decimal br := by
  rcases eq_or_lt_of_le hs with h | h
  · rw [← h, resize_self]
  have hρ : (0 : ℚ) < (br.fracRadix 0 : ℚ) := by
    have := fracRadix_ge2 br hv 0
    exact_mod_cast lt_of_lt_of_le (by norm_num) this
  have hρ0 : (br.fracRadix 0 : ℚ) ≠ 0 := ne_of_gt hρ
  have hval := fromDecLoop_value br hv hu (s - x.right.length) 0 x.remainder hsem.2.2.1
  rw [resize_grow_fields br x hsem s h]
  unfold BasedReal.decimal BasedReal.intVal BasedReal.significant
  simp only [List.length_append, fromDecLoop_length]
  rw [fracSumAux_append]
  simp only [fracSumAux_lowSum br hv hu, zero_add, pow_zero, div_one,
    fracFactor_uniform br hu]
  push_cast
  linear_combination ((x.sign : ℚ) / (br.fracRadix 0 : ℚ) ^ x.right.length) * hval

theorem resize_seminorm (br : RadixBase) (x : BasedReal) (hsem : seminorm x)
    (s : ℕ) (hs : x.significant ≤ s) : seminorm (x.resize br s) := by
  rcases eq_or_lt_of_le hs with h | h
  · rw [← h, resize_self]; exact hsem
  · rw [resize_grow_fields br x hsem s h]
    obtain ⟨hn, hsg, hr0, hr1⟩ := hsem
    have hinv := fromDecLoop_inv br (s - x.significant) 0 x.remainder hr0 hr1
    exact ⟨hn, hsg, hinv.1, hinv.2⟩

theorem addBody_comm (br : RadixBase) (maxright maxleft : ℕ) (sgn : ℤ)
    (va vb : BasedReal) :
    addBody br maxright maxleft sgn va vb = addBody br maxright maxleft sgn vb va := by
  simp only [addBody]
  rw [max_comm (va.left.length + va.right.length) (vb.left.length + vb.right.length),
    add_comm (va.remainder * (va.sign : ℚ)) (vb.remainder * (vb.sign : ℚ)),
    List.zipWith_comm_of_comm (· + ·) (fun a b => Int.add_comm a b)]

theorem neg_significant (x : BasedReal) : x.neg.significant = x.significant := rfl

theorem add_comm_raw (br : RadixBase) (hv : br.validB = true) (hu : uniformFrac br)
    (x y : BasedReal) (hx : x.validB br = true) (hy : y.validB br = true) :
    BasedReal._add br x y = BasedReal._add br y x := by
  have hsx := validB_seminorm br x hx
  have hsy := validB_seminorm br y hy
  by_cases hc : x.decimal br = -(y.decimal br)
  · have hc2 : y.decimal br = -(x.decimal br) := by linarith
    unfold BasedReal._add
    rw [if_pos hc, if_pos hc2]
  · have hc2 : ¬ (y.decimal br = -(x.decimal br)) := fun h => hc (by linarith)
    simp only [BasedReal._add]
    rw [if_neg hc, if_neg hc2]
    rw [max_comm y.significant x.significant, max_comm y.left.length x.left.length]
    simp only [resize_sign]
    have hmx : x.significant ≤ max x.significant y.significant := le_max_left _ _
    have hmy : y.significant ≤ max x.significant y.significant := le_max_right _ _
    have hax : ((x.resize br (max x.significant y.significant)).absB).decimal br
        = |x.decimal br| := by
      rw [absB_decimal br _ (resize_seminorm br x hsx _ hmx),
        resize_decimal_uniform br hv hu x hsx _ hmx]
    have hay : ((y.resize br (max x.significant y.significant)).absB).decimal br
        = |y.decimal br| := by
      rw [absB_decimal br _ (resize_seminorm br y hsy _ hmy),
        resize_decimal_uniform br hv hu y hsy _ hmy]
    rw [hax, hay]
    rcases lt_trichotomy (|y.decimal br|) (|x.decimal br|) with h | h | h
    · rw [if_pos h, if_neg (not_lt.2 (le_of_lt h))]
      exact addBody_comm br _ _ _ _ _
    · have hxy : y.decimal br = x.decimal br := by
        rcases abs_eq_abs.1 h with h' | h'
        · exact h'
        · exact absurd h' hc2
      have hss : x.sign = y.sign := by
        rcases lt_trichotomy (x.decimal br) 0 with hlt | heq | hgt
        · rw [sign_of_decimal_neg br x hsx hlt,
            sign_of_decimal_neg br y hsy (by rw [hxy]; exact hlt)]
        · exact absurd (by rw [heq, hxy, heq]; ring) hc
        · rw [sign_of_decimal_pos br x hsx hgt,
            sign_of_decimal_pos br y hsy (by rw [hxy]; exact hgt)]
      rw [h]
      rw [if_neg (lt_irrefl _), if_neg (lt_irrefl _), hss]
      exact addBody_comm br _ _ _ _ _
    · rw [if_neg (not_lt.2 (le_of_lt h)), if_pos h]
      exact addBody_comm br _ _ _ _ _

theorem resizeE_coe (br : RadixBase) (x : BasedReal) (n : ℕ) :
    x.resizeE br (n : ℤ) = .ok (x.resize br n) := by
  unfold BasedReal.resizeE
  rw [if_neg (by omega)]
  simp

theorem addOp_default (br : RadixBase) (a b : BasedReal) :
    addOp br defaultCtx a b
      = match BasedReal._add br a b with
        | some raw => .ok (raw.resize br (max a.significant b.significant))
        | none => .error .indexError := by
  cases h : BasedReal._add br a b with
  | none =>
    simp only [addOp, opPipeline, defaultCtx, BasedReal._addE, h, getSignificant,
      bind, Except.bind]
  | some raw =>
    simp only [addOp, opPipeline, defaultCtx, BasedReal._addE, h, getSignificant,
      bind, Except.bind, ← Nat.cast_max, resizeE_coe, pure, Except.pure, tmodeApply]

theorem mulOp_default (br : RadixBase) (a b : BasedReal) :
    mulOp br defaultCtx a b
      = match BasedReal._mulE br defaultCtx a b with
        | .ok raw => .ok (raw.resize br (max a.significant b.significant))
        | .error e => .error e := by
  have hmul : defaultCtx.mul = Option.none := rfl
  have hadd : defaultCtx.add = Option.none := rfl
  have hpm : defaultCtx.pmode = PMode.max := rfl
  have htm : defaultCtx.tmode = TMode.none := rfl
  cases h : BasedReal._mulE br defaultCtx a b with
  | error e =>
    simp only [mulOp, opPipeline, hmul, h, getSignificant, hpm, bind, Except.bind]
  | ok raw =>
    simp only [mulOp, opPipeline, hmul, hadd, hpm, htm, h, getSignificant, bind, Except.bind,
      ← Nat.cast_max, resizeE_coe, pure, Except.pure, tmodeApply]

theorem addOp_zero_right (br : RadixBase) (hv : br.validB = true) (a : BasedReal)
    (ha : a.validB br = true) :
    valueD br (addOp br defaultCtx a (BasedReal.zero a.significant))
      = some (a.decimal br) := by
  rw [addOp_default]
  by_cases hd : a.decimal br = 0
  · have hadd : BasedReal._add br a (BasedReal.zero a.significant)
        = some (BasedReal.zero 0) := by
      unfold BasedReal._add
      rw [if_pos (by rw [zero_decimal, hd]; ring)]
    rw [hadd]
    simp only [zero_significant, max_self, resize_zero, valueD, zero_decimal, hd]
  · rw [add_zero_right br hv a ha hd]
    have hr := resize_self br a
    simp only [zero_significant, max_self, hr, valueD]

theorem addOp_neg_cancel (br : RadixBase) (a : BasedReal) (ha : a.validB br = true) :
    addOp br defaultCtx a a.neg
      = .ok (BasedReal.zero (min a.significant a.neg.significant)) := by
  have hn := (validB_seminorm br a ha).1
  have hc : a.decimal br = -(a.neg.decimal br) := by rw [decimal_neg br a hn]; ring
  have hadd : BasedReal._add br a a.neg = some (BasedReal.zero 0) := by
    unfold BasedReal._add
    rw [if_pos hc]
  rw [addOp_default, hadd]
  simp only [neg_significant, max_self, min_self, resize_zero]

theorem addOp_commutative (br : RadixBase) (hv : br.validB = true) (hu : uniformFrac br)
    (a b : BasedReal) (ha : a.validB br = true) (hb : b.validB br = true) :
    addOp br defaultCtx a b = addOp br defaultCtx b a := by
  rw [addOp_default, addOp_default, add_comm_raw br hv hu a b ha hb,
    max_comm a.significant b.significant]

theorem mulOp_one_right (br : RadixBase) (a : BasedReal) :
    valueD br (mulOp br defaultCtx a (BasedReal.one a.significant))
      = some (a.decimal br) := by
  rw [mulOp_default]
  have hy1 : (BasedReal.one a.significant).floatVal br = 1 := one_decimal br a.significant
  have hrone : (BasedReal.one a.significant).resize br a.significant
      = BasedReal.one a.significant := by
    have := resize_self br (BasedReal.one a.significant)
    rwa [one_significant] at this
  by_cases h1 : a.floatVal br = 1
  · have hm : BasedReal._mulE br defaultCtx a (BasedReal.one a.significant)
        = .ok (BasedReal.one a.significant) := by
      unfold BasedReal._mulE
      rw [if_pos h1]
    rw [hm]
    simp only [one_significant, max_self, hrone, valueD]
    rw [one_decimal]
    exact congrArg some h1.symm
  · by_cases h2 : a.floatVal br = -1
    · have hm : BasedReal._mulE br defaultCtx a (BasedReal.one a.significant)
          = .ok (BasedReal.one a.significant).neg := by
        unfold BasedReal._mulE
        rw [if_neg h1, if_pos h2]
      rw [hm]
      have hrs : (BasedReal.one a.significant).neg.resize br a.significant
          = (BasedReal.one a.significant).neg := by
        have := resize_self br (BasedReal.one a.significant).neg
        rwa [neg_significant, one_significant] at this
      simp only [one_significant, neg_significant, max_self, hrs, valueD]
      have hnl : normLeft (BasedReal.one a.significant).left
          = (BasedReal.one a.significant).left := by
        simp [BasedReal.one, BasedReal.make, normLeft]
      rw [decimal_neg br _ hnl, one_decimal]
      exact congrArg some (by rw [← h2]; rfl)
    · have hm : BasedReal._mulE br defaultCtx a (BasedReal.one a.significant)
          = .ok a := by
        unfold BasedReal._mulE
        rw [if_neg h1, if_neg h2, if_pos hy1]
      rw [hm]
      simp only [one_significant, max_self, resize_self, valueD]

theorem mulOp_zero_right (br : RadixBase) (a : BasedReal) :
    valueD br (mulOp br defaultCtx a (BasedReal.zero a.significant)) = some 0 := by
  rw [mulOp_default]
  have hy0 : (BasedReal.zero a.significant).floatVal br = 0 := zero_decimal br a.significant
  by_cases h1 : a.floatVal br = 1
  · have hm : BasedReal._mulE br defaultCtx a (BasedReal.zero a.significant)
        = .ok (BasedReal.zero a.significant) := by
      unfold BasedReal._mulE
      rw [if_pos h1]
    rw [hm]
    have hrz : (BasedReal.zero a.significant).resize br a.significant
        = BasedReal.zero a.significant := by
      have := resize_self br (BasedReal.zero a.significant)
      rwa [zero_significant] at this
    simp only [zero_significant, max_self, hrz, valueD, zero_decimal]
  · by_cases h2 : a.floatVal br = -1
    · have hm : BasedReal._mulE br defaultCtx a (BasedReal.zero a.significant)
          = .ok (BasedReal.zero a.significant).neg := by
        unfold BasedReal._mulE
        rw [if_neg h1, if_pos h2]
      rw [hm]
      have hrs : (BasedReal.zero a.significant).neg.resize br a.significant
          = (BasedReal.zero a.significant).neg := by
        have := resize_self br (BasedReal.zero a.significant).neg
        rwa [neg_significant, zero_significant] at this
      simp only [zero_significant, neg_significant, max_self, hrs, valueD]
      have hnl : normLeft (BasedReal.zero a.significant).left
          = (BasedReal.zero a.significant).left := by
        simp [BasedReal.zero, BasedReal.make, normLeft]
      rw [decimal_neg br _ hnl, zero_decimal]
      exact congrArg some (by ring)
    · have hy1 : ¬ ((BasedReal.zero a.significant).floatVal br = 1) := by
        rw [hy0]; norm_num
      have hy2 : ¬ ((BasedReal.zero a.significant).floatVal br = -1) := by
        rw [hy0]; norm_num
      have hm : BasedReal._mulE br defaultCtx a (BasedReal.zero a.significant)
          = .ok (BasedReal.zero 0) := by
        unfold BasedReal._mulE
        rw [if_neg h1, if_neg h2, if_neg hy1, if_neg hy2, if_pos (Or.inr hy0)]
      rw [hm]
      simp only [zero_significant, max_self, resize_zero, valueD, zero_decimal]

theorem loopGet_single (a : ℕ) (j : ℤ) : loopGet [a] j = a := by
  unfold loopGet
  rw [if_neg (by simp)]
  simp only [List.length_singleton]
  split_ifs with h1 h2 h3
  · rfl
  · rfl
  · have hj : j = 0 := by omega
    subst hj
    rfl
  · omega

theorem sexBase_uniform : uniformFrac sexBase := by
  intro i
  simp only [uniformFrac, RadixBase.fracRadix, sexBase]
  rw [loopGet_single, loopGet_single]

/-- C1: refuted by the decimal fallback path — for `a = 01;|r1/2` (value `3/2`)
and `b = -02` in the sexagesimal base, `divmod` returns `(-01, -02)`, so
`(a // b) * b + (a % b) = 0 ≠ 3/2`: the floor-division identity fails on the
decimal path for opposite-sign operands (the modulo expression's precedence
makes it return `b` itself), although the modulo result does carry the
divisor's sign. -/
theorem claim_c1_divmod_identity_violated :
    (⟨[1], [], 1, 1/2⟩ : BasedReal).validB sexBase = true
    ∧ (⟨[2], [], -1, 0⟩ : BasedReal).validB sexBase = true
    ∧ (⟨[1], [], 1, 1/2⟩ : BasedReal).decimal sexBase = 3/2
    ∧ (⟨[2], [], -1, 0⟩ : BasedReal).decimal sexBase = -2
    ∧ (⟨[1], [], 1, 1/2⟩ : BasedReal).divmodB sexBase ⟨[2], [], -1, 0⟩
        = .ok (⟨[1], [], -1, 0⟩, ⟨[2], [], -1, 0⟩)
    ∧ (⟨[1], [], -1, 0⟩ : BasedReal).decimal sexBase
          * (⟨[2], [], -1, 0⟩ : BasedReal).decimal sexBase
        + (⟨[2], [], -1, 0⟩ : BasedReal).decimal sexBase
      ≠ (⟨[1], [], 1, 1/2⟩ : BasedReal).decimal sexBase := by
  with_unfolding_all decide

set_option maxRecDepth 4000 in
/-- C2: every binary operator is the three-step `_with_context_precision`
pipeline over its algorithm slot (raw algorithm or override, resize to the
context's precision, truncature rule), the default context's precision rule
is the maximum of the operands' significant counts, and the two concrete
additions behave as claimed: `01;50 + 02;00` is `03;` under a fixed precision
of 0 with truncation, and `03;50` under the default context. -/
theorem claim_c2_operator_pipeline :
    (∀ (br : RadixBase) (ctx : PrecisionContext) (a b : BasedReal),
      addOp br ctx a b = opPipeline br ctx ctx.add (fun x y => x._addE br y) a b)
    ∧ (∀ (br : RadixBase) (ctx : PrecisionContext) (a b : BasedReal),
      subOp br ctx a b = opPipeline br ctx ctx.sub (fun x y => x._subE br ctx y) a b)
    ∧ (∀ (br : RadixBase) (ctx : PrecisionContext) (a b : BasedReal),
      mulOp br ctx a b = opPipeline br ctx ctx.mul (fun x y => x._mulE br ctx y) a b)
    ∧ (∀ (br : RadixBase) (ctx : PrecisionContext) (a b : BasedReal),
      truedivOp br ctx a b = opPipeline br ctx ctx.div (fun x y => x._truedivE br ctx y) a b)
    ∧ (∀ (br : RadixBase) (ctx : PrecisionContext) (ov : Option Alg)
        (alg : BasedReal → BasedReal → Except Err BasedReal) (a b : BasedReal),
      opPipeline br ctx ov alg a b = do
        let raw ← match ov with
          | some f => pure (f a b)
          | Option.none => alg a b
        let sig ← getSignificant ctx a b
        let v ← raw.resizeE br sig
        pure (tmodeApply br ctx.add ctx.tmode v))
    ∧ (∀ a b : BasedReal,
        getSignificant defaultCtx a b = .ok (max a.significant b.significant))
    ∧ addOp sexBase ⟨PMode.fixed 0, TMode.trunc, Option.none, Option.none, Option.none,
          Option.none, false, 1⟩ ⟨[1], [50], 1, 0⟩ ⟨[2], [0], 1, 0⟩ = .ok ⟨[3], [], 1, 0⟩
    ∧ addOp sexBase defaultCtx ⟨[1], [50], 1, 0⟩ ⟨[2], [0], 1, 0⟩
        = .ok ⟨[3], [50], 1, 0⟩ := by
  refine ⟨fun _ _ _ _ => rfl, fun _ _ _ _ => rfl, fun _ _ _ _ => rfl, fun _ _ _ _ => rfl,
    fun _ _ _ _ _ _ => rfl, fun _ _ => rfl, ?_, ?_⟩ <;> with_unfolding_all decide

/-- Digit lists all zero with a zero remainder: the shape every value-0
`BasedReal` has. -/
def allZero (v : BasedReal) : Prop :=
  (∀ d ∈ v.left, d = 0) ∧ (∀ d ∈ v.right, d = 0) ∧ v.remainder = 0

theorem intFactor_pos (br : RadixBase) (h : br.validB = true) (n : ℕ) :
    0 < br.intFactor n := by
  induction n with
  | zero => exact Nat.one_pos
  | succ k ih =>
    exact Nat.mul_pos ih (lt_of_lt_of_le (by norm_num) (intRadix_ge2 br h k))

theorem sumIntDigits_nonneg (br : RadixBase) :
    ∀ (l : List ℕ) (j : ℕ), 0 ≤ sumIntDigits br l j := by
  intro l
  induction l with
  | nil => intro j; exact le_refl 0
  | cons d ds ih =>
    intro j
    have h1 : (0 : ℤ) ≤ (d : ℤ) * br.intFactor j := by positivity
    have h2 := ih (j + 1)
    unfold sumIntDigits
    linarith

theorem sumIntDigits_eq_zero (br : RadixBase) (hv : br.validB = true) :
    ∀ (l : List ℕ) (j : ℕ), sumIntDigits br l j = 0 → ∀ d ∈ l, d = 0 := by
  intro l
  induction l with
  | nil => intro j _ d hd; simp at hd
  | cons a as ih =>
    intro j h d hd
    unfold sumIntDigits at h
    have h1 : (0 : ℤ) ≤ (a : ℤ) * br.intFactor j := by positivity
    have h2 := sumIntDigits_nonneg br as (j + 1)
    have ha : (a : ℤ) * br.intFactor j = 0 := by linarith
    have hF : (0 : ℤ) < (br.intFactor j : ℤ) := by exact_mod_cast intFactor_pos br hv j
    have ha0 : a = 0 := by
      rcases mul_eq_zero.1 ha with h' | h'
      · exact_mod_cast h'
      · exact absurd h' (ne_of_gt hF)
    rcases List.mem_cons.1 hd with h' | h'
    · rw [h', ha0]
    · exact ih (j + 1) (by linarith) d h'

theorem fracSumAux_eq_zero (br : RadixBase) (hv : br.validB = true) :
    ∀ (l : List ℕ) (i : ℕ), fracSumAux br l i = 0 → ∀ d ∈ l, d = 0 := by
  intro l
  induction l with
  | nil => intro i _ d hd; simp at hd
  | cons a as ih =>
    intro i h d hd
    unfold fracSumAux at h
    have hF : (0 : ℚ) < (br.fracFactor (i + 1) : ℚ) := by
      exact_mod_cast fracFactor_pos br hv (i + 1)
    have h1 : (0 : ℚ) ≤ (a : ℚ) / br.fracFactor (i + 1) := by positivity
    have h2 := fracSumAux_nonneg br as (i + 1)
    have ha : (a : ℚ) / br.fracFactor (i + 1) = 0 := by linarith
    have ha0 : a = 0 := by
      rcases div_eq_zero_iff.1 ha with h' | h'
      · exact_mod_cast h'
      · exact absurd h' (ne_of_gt hF)
    rcases List.mem_cons.1 hd with h' | h'
    · rw [h', ha0]
    · exact ih (i + 1) (by linarith) d h'

theorem sumIntDigits_zero_of_allZero (br : RadixBase) :
    ∀ (l : List ℕ) (j : ℕ), (∀ d ∈ l, d = 0) → sumIntDigits br l j = 0 := by
  intro l
  induction l with
  | nil => intro j _; rfl
  | cons d ds ih =>
    intro j h
    have hd : d = 0 := h d (List.mem_cons_self d ds)
    have := ih (j + 1) (fun x hx => h x (List.mem_cons_of_mem d hx))
    simp [sumIntDigits, hd, this]

theorem fracSumAux_zero_of_allZero (br : RadixBase) :
    ∀ (l : List ℕ) (i : ℕ), (∀ d ∈ l, d = 0) → fracSumAux br l i = 0 := by
  intro l
  induction l with
  | nil => intro i _; rfl
  | cons d ds ih =>
    intro i h
    have hd : d = 0 := h d (List.mem_cons_self d ds)
    have := ih (i + 1) (fun x hx => h x (List.mem_cons_of_mem d hx))
    simp [fracSumAux, hd, this]

theorem decimal_zero_of_allZero (br : RadixBase) (v : BasedReal) (h : allZero v) :
    v.decimal br = 0 := by
  obtain ⟨hl, hr, hrem⟩ := h
  unfold BasedReal.decimal BasedReal.intVal
  rw [sumIntDigits_zero_of_allZero br _ 0 (fun d hd => hl d (List.mem_reverse.1 hd)),
    fracSumAux_zero_of_allZero br _ 0 hr, hrem]
  simp

theorem allZero_of_decimal_zero (br : RadixBase) (hv : br.validB = true) (v : BasedReal)
    (hs : seminorm v) (h : v.decimal br = 0) : allZero v := by
  obtain ⟨hn, hsg, hr0, hr1⟩ := hs
  have hmag : ((v.intVal br).natAbs : ℚ) + fracSumAux br v.right 0
      + v.remainder / br.fracFactor v.significant = 0 := by
    rw [decimal_eq_sign_mul] at h
    rcases hsg with hsgn | hsgn <;> rw [hsgn] at h <;> push_cast at h <;> linarith
  have h1 : (0 : ℚ) ≤ ((v.intVal br).natAbs : ℚ) := by positivity
  have h2 := fracSumAux_nonneg br v.right 0
  have h3 : (0 : ℚ) ≤ v.remainder / br.fracFactor v.significant :=
    div_nonneg hr0 (by positivity)
  have hffpos : (0 : ℚ) < (br.fracFactor v.significant : ℚ) := by
    exact_mod_cast fracFactor_pos br hv v.significant
  refine ⟨?_, ?_, ?_⟩
  · have hia : ((v.intVal br).natAbs : ℚ) = 0 := by linarith
    have hnabs : (v.intVal br).natAbs = 0 := by exact_mod_cast hia
    have h0 : v.intVal br = 0 := Int.natAbs_eq_zero.1 hnabs
    unfold BasedReal.intVal at h0
    have hsum : sumIntDigits br v.left.reverse 0 = 0 := by
      rcases hsg with hsgn | hsgn <;> rw [hsgn] at h0 <;> omega
    intro d hd
    exact sumIntDigits_eq_zero br hv _ 0 hsum d (List.mem_reverse.2 hd)
  · have hfz : fracSumAux br v.right 0 = 0 := by linarith
    exact fracSumAux_eq_zero br hv _ 0 hfz
  · have hrz : v.remainder / (br.fracFactor v.significant : ℚ) = 0 := by linarith
    rcases div_eq_zero_iff.1 hrz with h' | h'
    · exact h'
    · exact absurd h' (ne_of_gt hffpos)

theorem mem_normLeft (l : List ℕ) (d : ℕ) (hd : d ∈ normLeft l) : d = 0 ∨ d ∈ l := by
  simp only [normLeft] at hd
  split_ifs at hd with h
  · simp at hd
    exact Or.inl hd
  · exact Or.inr (List.mem_of_mem_drop hd)

theorem allZero_make (left right : List ℕ) (sign : ℤ)
    (hl : ∀ d ∈ left, d = 0) (hr : ∀ d ∈ right, d = 0) :
    allZero (BasedReal.make left right sign 0) := by
  refine ⟨?_, hr, rfl⟩
  intro d hd
  rcases mem_normLeft left d hd with h | h
  · exact h
  · exact hl d h

theorem allZero_neg (v : BasedReal) (h : allZero v) : allZero v.neg := by
  obtain ⟨hl, hr, hrem⟩ := h
  unfold BasedReal.neg
  rw [hrem]
  exact allZero_make _ _ _ hl hr

theorem allZero_absB (v : BasedReal) (h : allZero v) : allZero v.absB := by
  unfold BasedReal.absB
  split_ifs
  · exact h
  · exact allZero_neg v h

theorem allZero_resize (br : RadixBase) (v : BasedReal) (h : allZero v) (n : ℕ) :
    allZero (v.resize br n) := by
  obtain ⟨hl, hr, hrem⟩ := h
  simp only [BasedReal.resize]
  split_ifs with h1 h2
  · exact ⟨hl, hr, hrem⟩
  · rw [hrem]
    have hz : (v.sign : ℚ) * 0 = 0 := by ring
    rw [hz, fromDecimal_zero]
    refine allZero_make _ _ _ hl ?_
    intro d hd
    rcases List.mem_append.1 hd with h' | h'
    · exact hr d h'
    · exact List.eq_of_mem_replicate h'
  · have hpz : allZero (BasedReal.make [] (v.right.drop n) 1 v.remainder) := by
      rw [hrem]
      refine allZero_make _ _ _ (by intro d hd; simp at hd) ?_
      intro d hd
      exact hr d (List.mem_of_mem_drop hd)
    rw [decimal_zero_of_allZero br _ hpz]
    refine allZero_make _ _ _ hl ?_
    intro d hd
    exact hr d (List.mem_of_mem_take hd)

theorem subunitLoop_zero (br : RadixBase) (i : ℤ) :
    ∀ (l : List ℕ) (idx res factor : ℤ), (∀ d ∈ l, d = 0) →
      subunitLoop br i l idx res factor = res := by
  intro l
  induction l with
  | nil => intro idx res factor _; rfl
  | cons v rest ih =>
    intro idx res factor h
    have hv0 : v = 0 := h v (List.mem_cons_self v rest)
    unfold subunitLoop
    rw [ih _ _ _ (fun d hd => h d (List.mem_cons_of_mem v hd)), hv0]
    simp

theorem subunitQuantity_zero (br : RadixBase) (v : BasedReal) (h : allZero v) (i : ℤ) :
    v.subunitQuantity br i = 0 := by
  obtain ⟨hl, hr, _⟩ := allZero_resize br v h (max 0 (i + 1)).toNat
  simp only [BasedReal.subunitQuantity]
  rw [subunitLoop_zero br i _ _ _ _ ?_]
  · exact mul_zero _
  · intro d hd
    rw [List.mem_reverse] at hd
    have hd' := List.mem_of_mem_take hd
    rcases List.mem_append.1 hd' with h' | h'
    · exact hl d h'
    · exact hr d h'

theorem divmodB_zero_divisor (br : RadixBase) (hv : br.validB = true)
    (hmx : br.mixed = false) (A B : BasedReal) (hA : A.floatVal br ≠ 0)
    (hB : allZero B) : A.divmodB br B = .error .zeroDivision := by
  simp only [BasedReal.divmodB, hmx, Bool.false_eq_true, if_false]
  rw [if_neg hA]
  by_cases hc : (A.resize br (max A.significant B.significant)).remainder = 0
      ∧ (B.resize br (max A.significant B.significant)).remainder = 0
  · rw [if_pos hc,
      if_pos (subunitQuantity_zero br _ (allZero_resize br B hB _) _)]
  · rw [if_neg hc, if_pos (decimal_zero_of_allZero br B hB)]

theorem divisionCore_eq_spec (br : RadixBase) (ctx : PrecisionContext)
    (x y : BasedReal) (s : ℕ) (hv : br.validB = true) (hmx : br.mixed = false)
    (hx : x.validB br = true) (hy : y.validB br = true) :
    divisionCore br ctx x y s = divisionSpec br ctx x y s := by
  simp only [divisionCore, divisionSpec]
  by_cases h0 : x.floatVal br = 0
  · rw [if_pos h0, if_pos h0]
  · rw [if_neg h0, if_neg h0]
    by_cases h1 : y.floatVal br = 1
    · rw [if_pos h1, if_pos h1]
    · rw [if_neg h1, if_neg h1]
      by_cases h2 : y.floatVal br = -1
      · rw [if_pos h2, if_pos h2]
      · rw [if_neg h2, if_neg h2]
        by_cases h3 : y.floatVal br = 0
        · rw [if_pos h3]
          have hzB : allZero y.absB :=
            allZero_absB y (allZero_of_decimal_zero br hv y (validB_seminorm br y hy) h3)
          have hA : x.absB.floatVal br ≠ 0 := by
            have habs := absB_decimal br x (validB_seminorm br x hx)
            show x.absB.decimal br ≠ 0
            rw [habs]
            simpa using h0
          rw [divmodB_zero_divisor br hv hmx x.absB y.absB hA hzB]
          rfl
        · rw [if_neg h3]

/-- C4: the `/` operator's raw step is the long-division algorithm of the
`division(other, significant)` method, but at the maximum of the two
operands' significant counts, not the claimed minimum plus one (the two
agree for equal-precision operands; `claim_c4_min_counterexample` separates
them). -/
theorem claim_c4_truediv_raw_precision (br : RadixBase) (ctx : PrecisionContext)
    (x y : BasedReal) (hv : br.validB = true) (hx : x.validB br = true)
    (hy : y.validB br = true) (h : br.mixed = false) :
    BasedReal._truedivE br ctx x y
      = divisionSpec br ctx x y (max x.significant y.significant) := by
  unfold BasedReal._truedivE
  simp only [h, Bool.false_eq_true, if_false]
  exact divisionCore_eq_spec br ctx x y _ hv h hx hy

/-- Witness for C4 at `01;30 / 02;15` in the sexagesimal base. -/
theorem claim_c4_witness :
    sexBase.validB = true
    ∧ (⟨[1], [30], 1, 0⟩ : BasedReal).validB sexBase = true
    ∧ (⟨[2], [15], 1, 0⟩ : BasedReal).validB sexBase = true
    ∧ sexBase.mixed = false
    ∧ BasedReal._truedivE sexBase defaultCtx ⟨[1], [30], 1, 0⟩ ⟨[2], [15], 1, 0⟩
        = divisionSpec sexBase defaultCtx ⟨[1], [30], 1, 0⟩ ⟨[2], [15], 1, 0⟩
          (max (⟨[1], [30], 1, 0⟩ : BasedReal).significant
            (⟨[2], [15], 1, 0⟩ : BasedReal).significant) :=
  ⟨by decide, by decide, by decide, by decide,
    claim_c4_truediv_raw_precision sexBase defaultCtx _ _ (by decide) (by decide)
      (by decide) (by decide)⟩

/-- Counterexample for C4: for `01 / 07` (both of significance 0) the raw `/`
result keeps 0 fractional digits (remainder `1/7`), while `division` at
`min + 1 = 1` produces the digit `08` with remainder `4/7`. -/
theorem claim_c4_min_counterexample :
    BasedReal._truedivE sexBase defaultCtx ⟨[1], [], 1, 0⟩ ⟨[7], [], 1, 0⟩
        = .ok ⟨[0], [], 1, 1/7⟩
    ∧ divisionSpec sexBase defaultCtx ⟨[1], [], 1, 0⟩ ⟨[7], [], 1, 0⟩
        (min (⟨[1], [], 1, 0⟩ : BasedReal).significant
          (⟨[7], [], 1, 0⟩ : BasedReal).significant + 1) = .ok ⟨[0], [8], 1, 4/7⟩
    ∧ BasedReal._truedivE sexBase defaultCtx ⟨[1], [], 1, 0⟩ ⟨[7], [], 1, 0⟩
      ≠ divisionSpec sexBase defaultCtx ⟨[1], [], 1, 0⟩ ⟨[7], [], 1, 0⟩
          (min (⟨[1], [], 1, 0⟩ : BasedReal).significant
            (⟨[7], [], 1, 0⟩ : BasedReal).significant + 1) := by
  with_unfolding_all decide

/-- C5: under the default context the addition
`Sexagesimal((1,21),(47,25)) + Sexagesimal((45,),(32,14,22))` yields integer
digits `(2,7)` and fractional digits `(19,39,22)` with remainder exactly 0
(`02,07 ; 19,39,22`). -/
theorem claim_c5_addition_scenario :
    (⟨[1, 21], [47, 25], 1, 0⟩ : BasedReal).validB sexBase = true
    ∧ (⟨[45], [32, 14, 22], 1, 0⟩ : BasedReal).validB sexBase = true
    ∧ addOp sexBase defaultCtx ⟨[1, 21], [47, 25], 1, 0⟩ ⟨[45], [32, 14, 22], 1, 0⟩
        = .ok ⟨[2, 7], [19, 39, 22], 1, 0⟩ := by
  with_unfolding_all decide

/-- Counterexample for C5: the result of the claimed addition has three
fractional digits `(19,39,22)` and remainder exactly 0, not two digits
`(19,39)` with a remainder near `0.4`. -/
theorem claim_c5_remainder_counterexample :
    addOp sexBase defaultCtx ⟨[1, 21], [47, 25], 1, 0⟩ ⟨[45], [32, 14, 22], 1, 0⟩
        = .ok ⟨[2, 7], [19, 39, 22], 1, 0⟩
    ∧ (⟨[2, 7], [19, 39, 22], 1, 0⟩ : BasedReal).right ≠ [19, 39]
    ∧ (⟨[2, 7], [19, 39, 22], 1, 0⟩ : BasedReal).remainder = 0 := by
  with_unfolding_all decide

/-- C6: constructor validation — a sign other than `±1` fails, a remainder
outside `[0,1)` other than exactly 1 fails, float digits fail, out-of-range
digits fail naming the offending radix and digit (never clamped) — but a
remainder of exactly 1 is NOT folded into the lowest digit: the `self += …`
in `__check_range` rebinds a local and drops the result, so the object is
returned with remainder still 1. -/
theorem claim_c6_constructor_validation :
    basedRealNew sexBase [.int 1] [.int 0] 1 1 = .ok ⟨[1], [0], 1, 1⟩
    ∧ (⟨[1], [0], 1, 1⟩ : BasedReal).remainder = 1
    ∧ basedRealNew sexBase [.int 1] [.int 0] 2 0 = .error .signError
    ∧ basedRealNew sexBase [.int 1] [.int 0] 1 (5/4) = .error .remainderError
    ∧ basedRealNew sexBase [.int 1] [.float (1/2)] 1 0 = .error .illegalFloat
    ∧ basedRealNew sexBase [.int 1] [.int 60] 1 0 = .error (.illegalBaseValue 60 60)
    ∧ basedRealNew sexBase [.int 1] [.int (-2)] 1 0 = .error (.illegalBaseValue 60 (-2)) := by
  with_unfolding_all decide

/-- C7: corrected domain-error behaviour — square root of a negative-valued
operand raises, a negative operand to a non-integer exponent raises, dividing
a NONZERO operand by zero raises; but `0 / 0` returns zero (the dividend is
checked first), and sqrt returns a zero operand unchanged only when its sign
is `+1` (`claim_c7_zero_counterexample` shows the negative-signed zero
raising). -/
theorem claim_c7_domain_errors (br : RadixBase) (ctx : PrecisionContext)
    (sq : ℚ → ℚ) (pw : ℚ → ℚ → ℚ) (x y : BasedReal) (it : Option ℕ) (e : ℚ) :
    (seminorm x → x.decimal br < 0 → sqrtB br ctx sq x it = .error .sqrtDomain)
    ∧ (x.floatVal br < 0 → (ratTrunc e : ℚ) ≠ e → powB br ctx pw x e = .error .powDomain)
    ∧ (x.floatVal br ≠ 0 → y.floatVal br = 0 →
        BasedReal._truedivE br ctx x y = .error .zeroDivision)
    ∧ (x.sign = 1 → x.floatVal br = 0 → sqrtB br ctx sq x it = .ok x) := by
  refine ⟨?_, ?_, ?_, ?_⟩
  · intro hsem hd
    unfold sqrtB
    rw [if_pos (by rw [sign_of_decimal_neg br x hsem hd]; norm_num)]
  · intro h1 h2
    have he : e ≠ 0 := by
      intro h0
      exact h2 (by rw [h0]; simp [ratTrunc_zero])
    unfold powB
    rw [if_neg he, if_neg (by intro h0; rw [h0] at h1; exact absurd h1 (by norm_num)),
      if_pos ⟨h1, h2⟩]
  · intro h1 h2
    unfold BasedReal._truedivE divisionCore
    cases hm : br.mixed with
    | true => rw [if_pos rfl, if_pos h2]
    | false =>
      rw [if_neg (by simp)]
      rw [if_neg h1, if_neg (by rw [h2]; norm_num), if_neg (by rw [h2]; norm_num),
        if_pos h2]
  · intro h1 h2
    unfold sqrtB
    rw [if_neg (by rw [h1]; norm_num), if_pos h2]

/-- Counterexample for C7: dividing the zero of significance 1 by itself
returns zero rather than raising, and the square root of the valid
negative-signed zero (value 0) raises a domain error instead of returning
the operand. -/
theorem claim_c7_zero_counterexample :
    truedivOp sexBase defaultCtx (BasedReal.zero 1) (BasedReal.zero 1) = .ok ⟨[0], [0], 1, 0⟩
    ∧ (BasedReal.zero 1).decimal sexBase = 0
    ∧ (⟨[0], [], -1, 0⟩ : BasedReal).validB sexBase = true
    ∧ (⟨[0], [], -1, 0⟩ : BasedReal).decimal sexBase = 0
    ∧ sqrtB sexBase defaultCtx (fun q => q) ⟨[0], [], -1, 0⟩ Option.none
        = .error .sqrtDomain := by
  with_unfolding_all decide

/-- C9: `resize` rejects a negative target precision with
`NotImplementedError` (it never drops integer digits), `resize` at the
current precision is the identity, and `truncate` does accept a negative
argument, emptying the fractional digits. -/
theorem claim_c9_resize_negative (br : RadixBase) (x : BasedReal) (n : ℤ) (hn : n < 0) :
    x.resizeE br n = .error .notImplemented
    ∧ x.resizeE br (x.significant : ℤ) = .ok x
    ∧ x.truncateB br (some n)
        = BasedReal.make (x.left.take (-n).toNat) [] x.sign 0 := by
  refine ⟨?_, ?_, ?_⟩
  · unfold BasedReal.resizeE
    rw [if_pos hn]
  · rw [resizeE_coe, resize_self]
  · simp only [BasedReal.truncateB, Option.getD]
    rw [if_neg (by omega), if_neg (by omega), if_neg (by omega)]

/-- Witness for C9 at target `-1` on `01;30` (the program's `truncate(-1)`
keeps the integer digit: `01 ;`). -/
theorem claim_c9_witness :
    (-1 : ℤ) < 0
    ∧ ((⟨[1], [30], 1, 0⟩ : BasedReal).resizeE sexBase (-1) = .error .notImplemented
      ∧ (⟨[1], [30], 1, 0⟩ : BasedReal).resizeE sexBase
          ((⟨[1], [30], 1, 0⟩ : BasedReal).significant : ℤ) = .ok ⟨[1], [30], 1, 0⟩
      ∧ (⟨[1], [30], 1, 0⟩ : BasedReal).truncateB sexBase (some (-1))
          = BasedReal.make ((⟨[1], [30], 1, 0⟩ : BasedReal).left.take (-(-1 : ℤ)).toNat)
              [] (⟨[1], [30], 1, 0⟩ : BasedReal).sign 0) :=
  ⟨by decide, claim_c9_resize_negative sexBase ⟨[1], [30], 1, 0⟩ (-1) (by decide)⟩

/-- C10: equality with an object that does not support `float` returns
`False` (and `!=` returns `True`) without raising; a `BasedReal` operand is
compared by exact decimal value, any other float-convertible operand by
float value, and `!=` is always the boolean negation of `==`. -/
theorem claim_c10_eq_fallback (br : RadixBase) (x : BasedReal) :
    eqB br x PyObj.nonFloat = false
    ∧ neB br x PyObj.nonFloat = true
    ∧ (∀ b : BasedReal, eqB br x (PyObj.based b) = (x.decimal br == b.decimal br))
    ∧ (∀ q : ℚ, eqB br x (PyObj.real q) = (x.floatVal br == q))
    ∧ (∀ o : PyObj, neB br x o = !(eqB br x o)) :=
  ⟨rfl, rfl, fun _ => rfl, fun _ => rfl, fun _ => rfl⟩

theorem slotOk_set (reg : Alg → Bool) (v : Option Alg) :
    slotOk reg (.set v) = slotReg reg v := by
  cases v <;> rfl

theorem mutateRun_state_stack (reg : Alg → Bool) (c : PrecisionContext) (a : MutateArgs) :
    (mutateRun reg c a).2.stack = c.stack := by
  simp only [mutateRun]
  split_ifs <;> simp [mutateFields]

theorem mutateRun_ok_state (reg : Alg → Bool) (c : PrecisionContext) (a : MutateArgs) :
    ∀ c2, (mutateRun reg c a).1 = .ok c2 → c2 = (mutateRun reg c a).2 := by
  simp only [mutateRun]
  split_ifs <;> intro c2 h <;> simp_all

theorem spExit_saveConfig (reg : Alg → Bool) (c t : PrecisionContext) (hc : cfgOk reg c) :
    spExit reg (saveConfig c) t
      = ⟨c.pmode, c.tmode, c.add, c.sub, c.mul, c.div, c.recording, t.stack - 1⟩ := by
  obtain ⟨h1, h2, h3, h4, h5⟩ := hc
  simp only [spExit, mutateRun, fullArgs, saveConfig, slotOk_set, h1, h2, h3, h4,
    Bool.and_self, Bool.not_true, Bool.false_eq_true, if_false, mutateFields,
    applySlot, Option.getD_some]
  rw [if_neg (by simp [h5])]

theorem spEnter_saved (reg : Alg → Bool) (c : PrecisionContext) (a : MutateArgs) :
    (spEnter reg c a).2.2 = saveConfig c := rfl

theorem spEnter_stack (reg : Alg → Bool) (c : PrecisionContext) (a : MutateArgs) :
    (spEnter reg c a).2.1.stack = c.stack + 1 := by
  show (mutateRun reg { c with stack := c.stack + 1 } a).2.stack = c.stack + 1
  rw [mutateRun_state_stack]

theorem setPrecisionScope_id (reg : Alg → Bool) (c : PrecisionContext) (a : MutateArgs)
    (hc : cfgOk reg c) (body : PrecisionContext → PrecisionContext)
    (hbody : ∀ d, (body d).stack = d.stack) :
    setPrecisionScope reg c a body = c := by
  simp only [setPrecisionScope, spEnter]
  cases h : (mutateRun reg { c with stack := c.stack + 1 } a).1 with
  | ok c2 =>
    simp only [h]
    rw [spExit_saveConfig reg c _ hc, hbody c2,
      mutateRun_ok_state reg { c with stack := c.stack + 1 } a c2 h,
      mutateRun_state_stack]
    simp
  | error e =>
    simp only [h]
    rw [spExit_saveConfig reg c _ hc, mutateRun_state_stack]
    simp

/-- C3: the scoped `set_precision` mechanism saves the full configuration and
increments the nesting counter on entry; the `finally` half restores every
saved field (precision mode, truncature mode, recording flag and all four
custom-algorithm slots) and decrements the counter from ANY intermediate
context — hence also on exception paths — provided the saved configuration
passes the registry/validity re-check (`cfgOk`); a whole scope whose body
only changes non-stack fields is the identity on the context; nesting is
unlimited (the counter is plain arithmetic); and `set_context` is rejected
with an error exactly when the counter is positive. -/
theorem claim_c3_set_precision_scoping (reg : Alg → Bool) (c t new : PrecisionContext)
    (a : MutateArgs) (hc : cfgOk reg c) :
    (spEnter reg c a).2.2 = saveConfig c
    ∧ (spEnter reg c a).2.1.stack = c.stack + 1
    ∧ spExit reg (saveConfig c) t
        = ⟨c.pmode, c.tmode, c.add, c.sub, c.mul, c.div, c.recording, t.stack - 1⟩
    ∧ (∀ body : PrecisionContext → PrecisionContext,
        (∀ d, (body d).stack = d.stack) → setPrecisionScope reg c a body = c)
    ∧ (0 < c.stack → setContextB c new = .error .contextNested)
    ∧ (c.stack = 0 → setContextB c new = .ok { new with stack := 0 }) := by
  refine ⟨spEnter_saved reg c a, spEnter_stack reg c a, spExit_saveConfig reg c t hc,
    fun body hbody => setPrecisionScope_id reg c a hc body hbody, ?_, ?_⟩
  · intro h
    unfold setContextB
    rw [if_pos h]
  · intro h
    unfold setContextB
    rw [if_neg (by omega)]

/-- Witness for C3: the default context under the empty registry, a scope
setting a fixed precision of 2 with truncation, exited from a context of
nesting depth 1. -/
theorem claim_c3_witness :
    cfgOk (fun _ => false) defaultCtx
    ∧ ((spEnter (fun _ => false) defaultCtx
          ⟨some (PMode.fixed 2), some TMode.trunc, Option.none, .keep, .keep, .keep,
            .keep⟩).2.2 = saveConfig defaultCtx
      ∧ (spEnter (fun _ => false) defaultCtx
          ⟨some (PMode.fixed 2), some TMode.trunc, Option.none, .keep, .keep, .keep,
            .keep⟩).2.1.stack = defaultCtx.stack + 1
      ∧ spExit (fun _ => false) (saveConfig defaultCtx)
          ⟨PMode.fixed 2, TMode.trunc, Option.none, Option.none, Option.none,
            Option.none, false, 1⟩
        = ⟨defaultCtx.pmode, defaultCtx.tmode, defaultCtx.add, defaultCtx.sub,
            defaultCtx.mul, defaultCtx.div, defaultCtx.recording,
            (⟨PMode.fixed 2, TMode.trunc, Option.none, Option.none, Option.none,
              Option.none, false, 1⟩ : PrecisionContext).stack - 1⟩
      ∧ (∀ body : PrecisionContext → PrecisionContext,
          (∀ d, (body d).stack = d.stack) →
            setPrecisionScope (fun _ => false) defaultCtx
              ⟨some (PMode.fixed 2), some TMode.trunc, Option.none, .keep, .keep, .keep,
                .keep⟩ body = defaultCtx)
      ∧ (0 < defaultCtx.stack →
          setContextB defaultCtx defaultCtx = .error .contextNested)
      ∧ (defaultCtx.stack = 0 →
          setContextB defaultCtx defaultCtx = .ok { defaultCtx with stack := 0 })) :=
  ⟨⟨rfl, rfl, rfl, rfl, rfl⟩,
    claim_c3_set_precision_scoping (fun _ => false) defaultCtx
      ⟨PMode.fixed 2, TMode.trunc, Option.none, Option.none, Option.none,
        Option.none, false, 1⟩ defaultCtx
      ⟨some (PMode.fixed 2), some TMode.trunc, Option.none, .keep, .keep, .keep, .keep⟩
      ⟨rfl, rfl, rfl, rfl, rfl⟩⟩

/-- Non-decreasing fractional radices (true of every registered numeral
system, including the temporal base `[10] ; [24,60]`): exactly the bases for
which `resize` re-expands a remainder into digits that stay within range at
their landing positions. -/
def fracMono (br : RadixBase) : Prop :=
  ∀ i j : ℕ, i ≤ j → br.fracRadix i ≤ br.fracRadix j

/-- Every fractional digit of a valid number is below the radix at its
position. -/
def FracOK (br : RadixBase) (l : List ℕ) (i : ℕ) : Prop :=
  ∀ j, j < l.length → l.getD j 0 < br.fracRadix (i + j)

/-- Every integer digit (least significant first) is below the radix at its
position. -/
def IntOK (br : RadixBase) (l : List ℕ) (j0 : ℕ) : Prop :=
  ∀ j, j < l.length → l.getD j 0 < br.intRadix (j0 + j)

theorem validB_rightOK (br : RadixBase) (x : BasedReal) (h : x.validB br = true) :
    FracOK br x.right 0 := by
  intro j hj
  have hlen : x.left.length + j < (x.left ++ x.right).length := by
    simp only [List.length_append]
    omega
  have hg : (x.left ++ x.right).get ⟨x.left.length + j, hlen⟩
      < br.atPos (((0 + (x.left.length + j) : ℕ) : ℤ) - x.left.length + 1) :=
    digitsInRange_get br x.left.length _ 0 (validB_digits br x h)
      (x.left.length + j) hlen
  have hidx : (((0 + (x.left.length + j) : ℕ) : ℤ)) - x.left.length + 1 = (j : ℤ) + 1 := by
    push_cast
    ring
  rw [hidx] at hg
  have hpos : br.atPos ((j : ℤ) + 1) = br.fracRadix j := by
    unfold RadixBase.atPos RadixBase.fracRadix
    rw [if_neg (by omega)]
    congr 1
    omega
  rw [hpos] at hg
  have hgd : (x.left ++ x.right).getD (x.left.length + j) 0 < br.fracRadix j := by
    rw [List.getD_eq_getElem _ 0 hlen]
    exact hg
  rw [List.getD_append_right x.left x.right 0 (x.left.length + j)
    (Nat.le_add_right _ _)] at hgd
  simpa [Nat.add_sub_cancel_left] using hgd

theorem validB_leftOK (br : RadixBase) (x : BasedReal) (h : x.validB br = true) :
    IntOK br x.left.reverse 0 := by
  intro j hj
  rw [List.length_reverse] at hj
  have hlen : x.left.length - 1 - j < (x.left ++ x.right).length := by
    simp only [List.length_append]
    omega
  have hg : (x.left ++ x.right).get ⟨x.left.length - 1 - j, hlen⟩
      < br.atPos (((0 + (x.left.length - 1 - j) : ℕ) : ℤ) - x.left.length + 1) :=
    digitsInRange_get br x.left.length _ 0 (validB_digits br x h)
      (x.left.length - 1 - j) hlen
  have hidx : (((0 + (x.left.length - 1 - j) : ℕ) : ℤ)) - x.left.length + 1
      = -(j : ℤ) := by
    have h1 : ((x.left.length - 1 - j : ℕ) : ℤ) = (x.left.length : ℤ) - 1 - j := by
      omega
    push_cast [h1]
    ring
  rw [hidx] at hg
  have hpos : br.atPos (-(j : ℤ)) = br.intRadix j := by
    unfold RadixBase.atPos RadixBase.intRadix
    rw [if_pos (by omega)]
  rw [hpos] at hg
  have hgd : (x.left ++ x.right).getD (x.left.length - 1 - j) 0 < br.intRadix j := by
    rw [List.getD_eq_getElem _ 0 hlen]
    exact hg
  rw [List.getD_append x.left x.right 0 _ (by omega)] at hgd
  have hrev : x.left.reverse.getD j 0 = x.left.getD (x.left.length - 1 - j) 0 := by
    rw [List.getD_eq_getElem x.left.reverse 0 (by rw [List.length_reverse]; omega),
      List.getD_eq_getElem x.left 0 (by omega), List.getElem_reverse]
  have hgoal : x.left.reverse.getD j 0 < br.intRadix j := by
    rw [hrev]
    exact hgd
  simpa using hgoal

theorem fromDecLoop_digit_lt (br : RadixBase) (hv : br.validB = true) :
    ∀ (k i : ℕ) (v : ℚ), 0 ≤ v → v < 1 →
      ∀ j, j < k → (fromDecLoop br k i v).1.getD j 0 < br.fracRadix (i + j) := by
  intro k
  induction k with
  | zero => intro i v _ _ j hj; omega
  | succ n ih =>
    intro i v h0 h1 j hj
    have hr : (0 : ℚ) < (br.fracRadix i : ℚ) := by
      have := fracRadix_ge2 br hv i
      exact_mod_cast lt_of_lt_of_le (by norm_num) this
    have hv' : (0 : ℚ) ≤ v * br.fracRadix i := by positivity
    have htr : ratTrunc (v * br.fracRadix i) = ⌊v * (br.fracRadix i : ℚ)⌋ := by
      unfold ratTrunc
      rw [if_pos hv']
    unfold fromDecLoop
    simp only [htr]
    cases j with
    | zero =>
      have hlt : v * (br.fracRadix i : ℚ) < br.fracRadix i := by nlinarith
      have hfl : ⌊v * (br.fracRadix i : ℚ)⌋ < (br.fracRadix i : ℤ) := by
        rw [Int.floor_lt]
        exact_mod_cast hlt
      have hfl0 : (0 : ℤ) ≤ ⌊v * (br.fracRadix i : ℚ)⌋ := Int.floor_nonneg.2 hv'
      simpa using (by omega : ⌊v * (br.fracRadix i : ℚ)⌋.toNat < br.fracRadix i)
    | succ j' =>
      have hf0 := Int.fract_nonneg (v * (br.fracRadix i : ℚ))
      have hf1 := Int.fract_lt_one (v * (br.fracRadix i : ℚ))
      unfold Int.fract at hf0 hf1
      have := ih (i + 1) _ hf0 hf1 j' (by omega)
      simp only [List.getD_cons_succ]
      rw [show i + (j' + 1) = (i + 1) + j' by omega]
      exact this

theorem resize_left_of_valid (br : RadixBase) (x : BasedReal) (hx : x.validB br = true)
    (m : ℕ) (hs : x.significant ≤ m) : (x.resize br m).left = x.left := by
  rcases eq_or_lt_of_le hs with h | h
  · rw [← h, resize_self]
  · rw [resize_grow_fields br x (validB_seminorm br x hx) m h]

theorem resize_right_length (br : RadixBase) (x : BasedReal) (hx : x.validB br = true)
    (m : ℕ) (hs : x.significant ≤ m) : (x.resize br m).right.length = m := by
  have hds : x.significant = x.right.length := rfl
  rcases eq_or_lt_of_le hs with h | h
  · rw [← h, resize_self]
    exact hds.symm
  · rw [resize_grow_fields br x (validB_seminorm br x hx) m h]
    simp only [List.length_append, fromDecLoop_length]
    omega

theorem resize_right_fracOK (br : RadixBase) (hv : br.validB = true) (hm : fracMono br)
    (x : BasedReal) (hx : x.validB br = true) (m : ℕ) (hs : x.significant ≤ m) :
    FracOK br (x.resize br m).right 0 := by
  have hds : x.significant = x.right.length := rfl
  rcases eq_or_lt_of_le hs with h | h
  · rw [← h, resize_self]
    exact validB_rightOK br x hx
  · obtain ⟨hn, hsg, hr0, hr1⟩ := validB_seminorm br x hx
    rw [resize_grow_fields br x (validB_seminorm br x hx) m h]
    intro j hj
    have hj' : j < x.right.length + (m - x.significant) := by
      simpa [fromDecLoop_length] using hj
    change (x.right ++ (fromDecLoop br (m - x.significant) 0 x.remainder).1).getD j 0
      < br.fracRadix (0 + j)
    by_cases hlt : j < x.right.length
    · rw [List.getD_append _ _ _ _ hlt]
      have := validB_rightOK br x hx j hlt
      simpa using this
    · rw [List.getD_append_right _ _ _ _ (by omega)]
      have hd := fromDecLoop_digit_lt br hv (m - x.significant) 0 x.remainder hr0 hr1
        (j - x.right.length) (by omega)
      clear hj
      have hmono : br.fracRadix (0 + (j - x.right.length)) ≤ br.fracRadix j :=
        hm _ _ (by omega)
      exact lt_of_lt_of_le (by simpa using hd) (by simpa using hmono)

theorem fracSum_rem_lt_one (br : RadixBase) (hv : br.validB = true) :
    ∀ (l : List ℕ) (i : ℕ) (r : ℚ), FracOK br l i → 0 ≤ r → r < 1 →
      (br.fracFactor i : ℚ) * (fracSumAux br l i + r / br.fracFactor (i + l.length)) < 1 := by
  intro l
  induction l with
  | nil =>
    intro i r _ hr0 hr1
    have hF : (0 : ℚ) < (br.fracFactor i : ℚ) := by
      exact_mod_cast fracFactor_pos br hv i
    simp only [fracSumAux, List.length_nil, Nat.add_zero, zero_add]
    rw [mul_div_cancel₀ _ (ne_of_gt hF)]
    exact hr1
  | cons d ds ih =>
    intro i r hF hr0 hr1
    have hFi : (0 : ℚ) < (br.fracFactor i : ℚ) := by
      exact_mod_cast fracFactor_pos br hv i
    have hρ : (0 : ℚ) < (br.fracRadix i : ℚ) := by
      have := fracRadix_ge2 br hv i
      exact_mod_cast lt_of_lt_of_le (by norm_num) this
    have hdn : d < br.fracRadix i := by
      have := hF 0 (by simp)
      simpa using this
    have hd : (d : ℚ) + 1 ≤ (br.fracRadix i : ℚ) := by exact_mod_cast hdn
    have htail : FracOK br ds (i + 1) := by
      intro j hj
      have := hF (j + 1) (by simp only [List.length_cons]; omega)
      rw [List.getD_cons_succ] at this
      rw [show (i + 1) + j = i + (j + 1) from by omega]
      exact this
    have hkey := ih (i + 1) r htail hr0 hr1
    have hFsucc : (br.fracFactor (i + 1) : ℚ) = (br.fracFactor i : ℚ) * br.fracRadix i := by
      push_cast [RadixBase.fracFactor]
      ring
    have hlen : i + (d :: ds).length = (i + 1) + ds.length := by
      simp [List.length_cons]
      omega
    unfold fracSumAux
    rw [hlen]
    set W : ℚ := fracSumAux br ds (i + 1) + r / br.fracFactor ((i + 1) + ds.length) with hW
    have hWn : 0 ≤ W := by
      have h1 := fracSumAux_nonneg br ds (i + 1)
      have h2 : (0 : ℚ) ≤ r / br.fracFactor ((i + 1) + ds.length) :=
        div_nonneg hr0 (by positivity)
      rw [hW]
      linarith
    have heq : (br.fracFactor i : ℚ) * ((d : ℚ) / br.fracFactor (i + 1) + W)
        = ((d : ℚ) + (br.fracFactor (i + 1) : ℚ) * W) / br.fracRadix i := by
      rw [hFsucc]
      field_simp
      ring
    rw [show (d : ℚ) / ↑(br.fracFactor (i + 1)) + fracSumAux br ds (i + 1)
        + r / ↑(br.fracFactor (i + 1 + ds.length))
        = (d : ℚ) / ↑(br.fracFactor (i + 1)) + W from by rw [hW]; ring]
    rw [heq, div_lt_one hρ]
    nlinarith [hkey]

theorem frac_digits_unique (br : RadixBase) (hv : br.validB = true) :
    ∀ (k i : ℕ) (l1 l2 : List ℕ) (r1 r2 : ℚ),
      l1.length = k → l2.length = k → FracOK br l1 i → FracOK br l2 i →
      0 ≤ r1 → r1 < 1 → 0 ≤ r2 → r2 < 1 →
      fracSumAux br l1 i + r1 / br.fracFactor (i + k)
        = fracSumAux br l2 i + r2 / br.fracFactor (i + k) →
      l1 = l2 ∧ r1 = r2 := by
  intro k
  induction k with
  | zero =>
    intro i l1 l2 r1 r2 hL1 hL2 _ _ _ _ _ _ heq
    rw [List.length_eq_zero.1 hL1, List.length_eq_zero.1 hL2] at *
    refine ⟨rfl, ?_⟩
    have hF : (0 : ℚ) < (br.fracFactor (i + 0) : ℚ) := by
      exact_mod_cast fracFactor_pos br hv (i + 0)
    simp only [fracSumAux, zero_add] at heq
    rw [div_eq_div_iff (ne_of_gt hF) (ne_of_gt hF)] at heq
    exact mul_right_cancel₀ (ne_of_gt hF) heq
  | succ n ih =>
    intro i l1 l2 r1 r2 hL1 hL2 hF1 hF2 hr10 hr11 hr20 hr21 heq
    cases l1 with
    | nil => simp at hL1
    | cons d1 ds1 =>
      cases l2 with
      | nil => simp at hL2
      | cons d2 ds2 =>
        have hL1' : ds1.length = n := by simpa using hL1
        have hL2' : ds2.length = n := by simpa using hL2
        have hFs1 : FracOK br ds1 (i + 1) := by
          intro j hj
          have := hF1 (j + 1) (by simp only [List.length_cons]; omega)
          rw [List.getD_cons_succ] at this
          rw [show (i + 1) + j = i + (j + 1) from by omega]
          exact this
        have hFs2 : FracOK br ds2 (i + 1) := by
          intro j hj
          have := hF2 (j + 1) (by simp only [List.length_cons]; omega)
          rw [List.getD_cons_succ] at this
          rw [show (i + 1) + j = i + (j + 1) from by omega]
          exact this
        have hFpos : (0 : ℚ) < (br.fracFactor (i + 1) : ℚ) := by
          exact_mod_cast fracFactor_pos br hv (i + 1)
        set A1 : ℚ := (br.fracFactor (i + 1) : ℚ)
          * (fracSumAux br ds1 (i + 1) + r1 / br.fracFactor ((i + 1) + n)) with hA1
        set A2 : ℚ := (br.fracFactor (i + 1) : ℚ)
          * (fracSumAux br ds2 (i + 1) + r2 / br.fracFactor ((i + 1) + n)) with hA2
        have hA1b : A1 < 1 := by
          rw [hA1, ← hL1']
          exact fracSum_rem_lt_one br hv ds1 (i + 1) r1 hFs1 hr10 hr11
        have hA2b : A2 < 1 := by
          rw [hA2, ← hL2']
          exact fracSum_rem_lt_one br hv ds2 (i + 1) r2 hFs2 hr20 hr21
        have hA1n : 0 ≤ A1 := by
          rw [hA1]
          have := fracSumAux_nonneg br ds1 (i + 1)
          have h2 : (0 : ℚ) ≤ r1 / br.fracFactor ((i + 1) + n) :=
            div_nonneg hr10 (by positivity)
          positivity
        have hA2n : 0 ≤ A2 := by
          rw [hA2]
          have := fracSumAux_nonneg br ds2 (i + 1)
          have h2 : (0 : ℚ) ≤ r2 / br.fracFactor ((i + 1) + n) :=
            div_nonneg hr20 (by positivity)
          positivity
        have hidx : i + (n + 1) = (i + 1) + n := by omega
        have hmain : (d1 : ℚ) + A1 = (d2 : ℚ) + A2 := by
          have hmul := congrArg (fun t => (br.fracFactor (i + 1) : ℚ) * t) heq
          simp only [fracSumAux, hidx] at hmul
          rw [hA1, hA2]
          have e1 : (br.fracFactor (i + 1) : ℚ)
              * ((d1 : ℚ) / br.fracFactor (i + 1) + fracSumAux br ds1 (i + 1)
                + r1 / br.fracFactor ((i + 1) + n))
              = (d1 : ℚ) + (br.fracFactor (i + 1) : ℚ)
                * (fracSumAux br ds1 (i + 1) + r1 / br.fracFactor ((i + 1) + n)) := by
            field_simp
            ring
          have e2 : (br.fracFactor (i + 1) : ℚ)
              * ((d2 : ℚ) / br.fracFactor (i + 1) + fracSumAux br ds2 (i + 1)
                + r2 / br.fracFactor ((i + 1) + n))
              = (d2 : ℚ) + (br.fracFactor (i + 1) : ℚ)
                * (fracSumAux br ds2 (i + 1) + r2 / br.fracFactor ((i + 1) + n)) := by
            field_simp
            ring
          rw [e1, e2] at hmul
          exact hmul
        have hd12 : d1 = d2 := by
          rcases Nat.lt_trichotomy d1 d2 with h | h | h
          · exfalso
            have : (d1 : ℚ) + 1 ≤ (d2 : ℚ) := by exact_mod_cast h
            linarith
          · exact h
          · exfalso
            have : (d2 : ℚ) + 1 ≤ (d1 : ℚ) := by exact_mod_cast h
            linarith
        have hAeq : A1 = A2 := by
          rw [hd12] at hmain
          linarith
        have hinner : fracSumAux br ds1 (i + 1) + r1 / br.fracFactor ((i + 1) + n)
            = fracSumAux br ds2 (i + 1) + r2 / br.fracFactor ((i + 1) + n) := by
          rw [hA1, hA2] at hAeq
          exact mul_left_cancel₀ (ne_of_gt hFpos) hAeq
        obtain ⟨hds, hr⟩ := ih (i + 1) ds1 ds2 r1 r2 hL1' hL2' hFs1 hFs2
          hr10 hr11 hr20 hr21 hinner
        exact ⟨by rw [hd12, hds], hr⟩

theorem intFactor_mono (br : RadixBase) (hv : br.validB = true) :
    ∀ a b : ℕ, a ≤ b → br.intFactor a ≤ br.intFactor b := by
  intro a b h
  induction b with
  | zero =>
    have ha : a = 0 := Nat.le_zero.1 h
    rw [ha]
  | succ n ih =>
    by_cases hc : a ≤ n
    · have h1 := ih hc
      have h2 : br.intFactor n ≤ br.intFactor (n + 1) := by
        have hr := intRadix_ge2 br hv n
        calc br.intFactor n = br.intFactor n * 1 := (Nat.mul_one _).symm
          _ ≤ br.intFactor n * br.intRadix n := Nat.mul_le_mul_left _ (by omega)
          _ = br.intFactor (n + 1) := rfl
      exact le_trans h1 h2
    · have ha : a = n + 1 := by omega
      rw [ha]

theorem intFactor_cast_succ (br : RadixBase) (j : ℕ) :
    (br.intFactor (j + 1) : ℤ) = (br.intFactor j : ℤ) * br.intRadix j := by
  have h : br.intFactor (j + 1) = br.intFactor j * br.intRadix j := rfl
  rw [h]
  push_cast
  ring

theorem sumIntDigits_dvd (br : RadixBase) :
    ∀ (l : List ℕ) (j : ℕ), (br.intFactor j : ℤ) ∣ sumIntDigits br l j := by
  intro l
  induction l with
  | nil =>
    intro j
    simp [sumIntDigits]
  | cons d ds ih =>
    intro j
    unfold sumIntDigits
    refine dvd_add (dvd_mul_left _ _) ?_
    have h1 : (br.intFactor j : ℤ) ∣ (br.intFactor (j + 1) : ℤ) := by
      rw [intFactor_cast_succ]
      exact dvd_mul_right _ _
    exact dvd_trans h1 (ih (j + 1))

theorem sumIntDigits_ub (br : RadixBase) (hv : br.validB = true) :
    ∀ (l : List ℕ) (j : ℕ), IntOK br l j →
      sumIntDigits br l j ≤ (br.intFactor (j + l.length) : ℤ) - br.intFactor j := by
  intro l
  induction l with
  | nil =>
    intro j _
    have h : j + ([] : List ℕ).length = j := by simp
    rw [h]
    simp [sumIntDigits]
  | cons d ds ih =>
    intro j hOK
    have hd : d < br.intRadix j := by
      have := hOK 0 (by simp)
      simpa using this
    have htail : IntOK br ds (j + 1) := by
      intro k hk
      have := hOK (k + 1) (by simp only [List.length_cons]; omega)
      rw [List.getD_cons_succ] at this
      rw [show (j + 1) + k = j + (k + 1) from by omega]
      exact this
    have hih := ih (j + 1) htail
    have hFpos : (0 : ℤ) < br.intFactor j := by
      exact_mod_cast intFactor_pos br hv j
    have hdZ : (d : ℤ) ≤ (br.intRadix j : ℤ) - 1 := by
      have h : (d : ℤ) < br.intRadix j := by exact_mod_cast hd
      omega
    have h1 : (d : ℤ) * br.intFactor j ≤ ((br.intRadix j : ℤ) - 1) * br.intFactor j :=
      mul_le_mul_of_nonneg_right hdZ (le_of_lt hFpos)
    have h2 : ((br.intRadix j : ℤ) - 1) * br.intFactor j
        = (br.intFactor (j + 1) : ℤ) - br.intFactor j := by
      rw [intFactor_cast_succ]
      ring
    have hlen : (j + 1) + ds.length = j + (d :: ds).length := by
      simp only [List.length_cons]
      omega
    rw [hlen] at hih
    unfold sumIntDigits
    linarith

theorem sumIntDigits_lb_top (br : RadixBase) :
    ∀ (l : List ℕ) (j : ℕ),
      (l.getD (l.length - 1) 0 : ℤ) * br.intFactor (j + l.length - 1)
        ≤ sumIntDigits br l j := by
  intro l
  induction l with
  | nil =>
    intro j
    simp [sumIntDigits]
  | cons d ds ih =>
    intro j
    cases ds with
    | nil =>
      have h1 : (d :: ([] : List ℕ)).getD ((d :: ([] : List ℕ)).length - 1) 0 = d := rfl
      have h2 : j + (d :: ([] : List ℕ)).length - 1 = j := by simp
      rw [h1, h2]
      unfold sumIntDigits sumIntDigits
      simp
    | cons e es =>
      have hlen : (d :: e :: es).length - 1 = (e :: es).length - 1 + 1 := by
        simp only [List.length_cons]
        omega
      have hget : (d :: e :: es).getD ((d :: e :: es).length - 1) 0
          = (e :: es).getD ((e :: es).length - 1) 0 := by
        rw [hlen, List.getD_cons_succ]
      have hidx : j + (d :: e :: es).length - 1 = (j + 1) + (e :: es).length - 1 := by
        simp only [List.length_cons]
        omega
      have hih := ih (j + 1)
      have hd0 : (0 : ℤ) ≤ (d : ℤ) * br.intFactor j := by positivity
      rw [hget, hidx]
      unfold sumIntDigits
      linarith

theorem int_digits_unique (br : RadixBase) (hv : br.validB = true) :
    ∀ (l1 l2 : List ℕ) (j : ℕ), l1.length = l2.length →
      IntOK br l1 j → IntOK br l2 j →
      sumIntDigits br l1 j = sumIntDigits br l2 j → l1 = l2 := by
  intro l1
  induction l1 with
  | nil =>
    intro l2 j hlen _ _ _
    have h : l2.length = 0 := by simpa using hlen.symm
    exact (List.length_eq_zero.1 h).symm
  | cons d1 ds1 ih =>
    intro l2 j hlen hOK1 hOK2 heq
    cases l2 with
    | nil => simp at hlen
    | cons d2 ds2 =>
      have hd1 : d1 < br.intRadix j := by
        have := hOK1 0 (by simp)
        simpa using this
      have hd2 : d2 < br.intRadix j := by
        have := hOK2 0 (by simp)
        simpa using this
      have htail1 : IntOK br ds1 (j + 1) := by
        intro k hk
        have := hOK1 (k + 1) (by simp only [List.length_cons]; omega)
        rw [List.getD_cons_succ] at this
        rw [show (j + 1) + k = j + (k + 1) from by omega]
        exact this
      have htail2 : IntOK br ds2 (j + 1) := by
        intro k hk
        have := hOK2 (k + 1) (by simp only [List.length_cons]; omega)
        rw [List.getD_cons_succ] at this
        rw [show (j + 1) + k = j + (k + 1) from by omega]
        exact this
      obtain ⟨p, hp⟩ := sumIntDigits_dvd br ds1 (j + 1)
      obtain ⟨q, hq⟩ := sumIntDigits_dvd br ds2 (j + 1)
      have hFpos : (0 : ℤ) < br.intFactor j := by
        exact_mod_cast intFactor_pos br hv j
      have hr2 := intRadix_ge2 br hv j
      have hrpos : (0 : ℤ) < br.intRadix j := by
        have h : 0 < br.intRadix j := by omega
        exact_mod_cast h
      unfold sumIntDigits at heq
      rw [hp, hq, intFactor_cast_succ] at heq
      have hkey : (d1 : ℤ) + br.intRadix j * p = (d2 : ℤ) + br.intRadix j * q := by
        have h1 : (br.intFactor j : ℤ) * ((d1 : ℤ) + br.intRadix j * p)
            = (br.intFactor j : ℤ) * ((d2 : ℤ) + br.intRadix j * q) := by
          linear_combination heq
        exact mul_left_cancel₀ (ne_of_gt hFpos) h1
      have e1 : ((d1 : ℤ) + br.intRadix j * p) % br.intRadix j = d1 := by
        rw [Int.add_mul_emod_self_left]
        exact Int.emod_eq_of_lt (by positivity) (by exact_mod_cast hd1)
      have e2 : ((d2 : ℤ) + br.intRadix j * q) % br.intRadix j = d2 := by
        rw [Int.add_mul_emod_self_left]
        exact Int.emod_eq_of_lt (by positivity) (by exact_mod_cast hd2)
      have hd12 : d1 = d2 := by
        have h : (d1 : ℤ) = d2 := by rw [← e1, ← e2, hkey]
        exact_mod_cast h
      have hpq : p = q := by
        have hdz : ((d1 : ℕ) : ℤ) = d2 := by exact_mod_cast hd12
        have h2 : br.intRadix j * p = br.intRadix j * q := by linarith [hkey]
        exact mul_left_cancel₀ (ne_of_gt hrpos) h2
      have hsum : sumIntDigits br ds1 (j + 1) = sumIntDigits br ds2 (j + 1) := by
        rw [hp, hq, hpq]
      have hds := ih ds2 (j + 1) (by simpa using hlen) htail1 htail2 hsum
      rw [hd12, hds]

theorem reverse_getD_last (l : List ℕ) (h : l ≠ []) :
    l.reverse.getD (l.length - 1) 0 = l.headD 0 := by
  cases l with
  | nil => exact absurd rfl h
  | cons a as =>
    have hlt : (a :: as).length - 1 < (a :: as).reverse.length := by
      rw [List.length_reverse]
      simp
    rw [List.getD_eq_getElem _ 0 hlt, List.getElem_reverse]
    have hidx : (a :: as).length - 1 - ((a :: as).length - 1) = 0 := by omega
    simp only [hidx]
    rfl

theorem sumIntDigits_length_lt (br : RadixBase) (hv : br.validB = true)
    (l1 l2 : List ℕ) (h12 : l1.length < l2.length)
    (hOK1 : IntOK br l1 0) (htop : 1 ≤ l2.getD (l2.length - 1) 0) :
    sumIntDigits br l1 0 < sumIntDigits br l2 0 := by
  have hub := sumIntDigits_ub br hv l1 0 hOK1
  have hlb := sumIntDigits_lb_top br l2 0
  have hmono : br.intFactor l1.length ≤ br.intFactor (l2.length - 1) :=
    intFactor_mono br hv _ _ (by omega)
  have hF0 : br.intFactor 0 = 1 := rfl
  have h0l1 : (0 : ℕ) + l1.length = l1.length := Nat.zero_add _
  have h0l2 : (0 : ℕ) + l2.length - 1 = l2.length - 1 := by omega
  rw [h0l1, hF0] at hub
  push_cast at hub
  rw [h0l2] at hlb
  have htopZ : (1 : ℤ) ≤ (l2.getD (l2.length - 1) 0 : ℤ) := by exact_mod_cast htop
  have hFnn : (0 : ℤ) ≤ (br.intFactor (l2.length - 1) : ℤ) := by positivity
  have h1 : (br.intFactor (l2.length - 1) : ℤ)
      ≤ (l2.getD (l2.length - 1) 0 : ℤ) * br.intFactor (l2.length - 1) :=
    le_mul_of_one_le_left hFnn htopZ
  have hmonoZ : (br.intFactor l1.length : ℤ) ≤ br.intFactor (l2.length - 1) := by
    exact_mod_cast hmono
  linarith

theorem left_digits_unique (br : RadixBase) (hv : br.validB = true)
    (l1 l2 : List ℕ) (hne1 : l1 ≠ []) (hne2 : l2 ≠ [])
    (hn1 : l1.length = 1 ∨ l1.headD 0 ≠ 0) (hn2 : l2.length = 1 ∨ l2.headD 0 ≠ 0)
    (hOK1 : IntOK br l1.reverse 0) (hOK2 : IntOK br l2.reverse 0)
    (heq : sumIntDigits br l1.reverse 0 = sumIntDigits br l2.reverse 0) :
    l1 = l2 := by
  have hpos1 : 0 < l1.length := List.length_pos.2 hne1
  have hpos2 : 0 < l2.length := List.length_pos.2 hne2
  have hlen : l1.length = l2.length := by
    by_contra hc
    rcases Nat.lt_or_ge l1.length l2.length with h | h
    · have hh2 : l2.headD 0 ≠ 0 := by
        rcases hn2 with h' | h'
        · omega
        · exact h'
      have htop : 1 ≤ l2.reverse.getD (l2.reverse.length - 1) 0 := by
        rw [List.length_reverse, reverse_getD_last l2 hne2]
        omega
      have hlt := sumIntDigits_length_lt br hv l1.reverse l2.reverse
        (by rw [List.length_reverse, List.length_reverse]; exact h) hOK1 htop
      omega
    · have hl : l2.length < l1.length := by omega
      have hh1 : l1.headD 0 ≠ 0 := by
        rcases hn1 with h' | h'
        · omega
        · exact h'
      have htop : 1 ≤ l1.reverse.getD (l1.reverse.length - 1) 0 := by
        rw [List.length_reverse, reverse_getD_last l1 hne1]
        omega
      have hlt := sumIntDigits_length_lt br hv l2.reverse l1.reverse
        (by rw [List.length_reverse, List.length_reverse]; exact hl) hOK2 htop
      omega
  have h := int_digits_unique br hv l1.reverse l2.reverse 0
    (by rw [List.length_reverse, List.length_reverse, hlen]) hOK1 hOK2 heq
  exact List.reverse_inj.1 h

theorem nat_frac_sep (a b : ℤ) (f g : ℚ) (hf0 : 0 ≤ f) (hf1 : f < 1)
    (hg0 : 0 ≤ g) (hg1 : g < 1) (h : (a : ℚ) + f = (b : ℚ) + g) : a = b ∧ f = g := by
  have hf : ⌊f⌋ = 0 := Int.floor_eq_zero_iff.2 ⟨hf0, hf1⟩
  have hg : ⌊g⌋ = 0 := Int.floor_eq_zero_iff.2 ⟨hg0, hg1⟩
  have hfa : ⌊(a : ℚ) + f⌋ = a := by rw [Int.floor_int_add, hf, add_zero]
  have hgb : ⌊(b : ℚ) + g⌋ = b := by rw [Int.floor_int_add, hg, add_zero]
  have hab : a = b := by rw [← hfa, ← hgb, h]
  refine ⟨hab, ?_⟩
  have habQ : (a : ℚ) = b := by exact_mod_cast hab
  linarith

theorem intVal_natAbs (br : RadixBase) (x : BasedReal) (hs : x.sign = 1 ∨ x.sign = -1) :
    ((x.intVal br).natAbs : ℤ) = sumIntDigits br x.left.reverse 0 := by
  unfold BasedReal.intVal
  have h := sumIntDigits_nonneg br x.left.reverse 0
  rcases hs with h' | h' <;> rw [h']
  · rw [one_mul]
    exact Int.natAbs_of_nonneg h
  · rw [neg_one_mul, Int.natAbs_neg]
    exact Int.natAbs_of_nonneg h

theorem abs_decimal_eq_mag (br : RadixBase) (x : BasedReal) (hx : seminorm x) :
    |x.decimal br| = ((x.intVal br).natAbs : ℚ) + fracSumAux br x.right 0
      + x.remainder / br.fracFactor x.significant := by
  rw [decimal_eq_sign_mul, abs_mul]
  have hmag := decimal_mag_nonneg br x hx.2.2.1
  rcases hx.2.1 with h | h <;> rw [h]
  · push_cast
    rw [abs_one, one_mul]
    exact abs_of_nonneg hmag
  · push_cast
    rw [abs_neg, abs_one, one_mul]
    exact abs_of_nonneg hmag

theorem resize_mirror (br : RadixBase) (hv : br.validB = true) (hm : fracMono br)
    (x y : BasedReal) (hx : x.validB br = true) (hy : y.validB br = true)
    (m : ℕ) (hmx : x.significant ≤ m) (hmy : y.significant ≤ m)
    (habs : ((x.resize br m).absB).decimal br = ((y.resize br m).absB).decimal br)
    (hsgn : (y.resize br m).sign = -((x.resize br m).sign)) :
    y.resize br m = (x.resize br m).neg := by
  have hsx := validB_seminorm br x hx
  have hsy := validB_seminorm br y hy
  have hsa : seminorm (x.resize br m) := resize_seminorm br x hsx m hmx
  have hsb : seminorm (y.resize br m) := resize_seminorm br y hsy m hmy
  have hla : (x.resize br m).left = x.left := resize_left_of_valid br x hx m hmx
  have hlb : (y.resize br m).left = y.left := resize_left_of_valid br y hy m hmy
  have hra : (x.resize br m).right.length = m := resize_right_length br x hx m hmx
  have hrb : (y.resize br m).right.length = m := resize_right_length br y hy m hmy
  have hFa : FracOK br (x.resize br m).right 0 := resize_right_fracOK br hv hm x hx m hmx
  have hFb : FracOK br (y.resize br m).right 0 := resize_right_fracOK br hv hm y hy m hmy
  have hsiga : (x.resize br m).significant = m := hra
  have hsigb : (y.resize br m).significant = m := hrb
  have habs' : |(x.resize br m).decimal br| = |(y.resize br m).decimal br| := by
    rw [← absB_decimal br _ hsa, ← absB_decimal br _ hsb]
    exact habs
  rw [abs_decimal_eq_mag br _ hsa, abs_decimal_eq_mag br _ hsb, hsiga, hsigb] at habs'
  have hF0 : (br.fracFactor 0 : ℚ) = 1 := by
    norm_num [show br.fracFactor 0 = 1 from rfl]
  have hfa0 : 0 ≤ fracSumAux br (x.resize br m).right 0
      + (x.resize br m).remainder / br.fracFactor m :=
    add_nonneg (fracSumAux_nonneg br _ 0) (div_nonneg hsa.2.2.1 (by positivity))
  have hfb0 : 0 ≤ fracSumAux br (y.resize br m).right 0
      + (y.resize br m).remainder / br.fracFactor m :=
    add_nonneg (fracSumAux_nonneg br _ 0) (div_nonneg hsb.2.2.1 (by positivity))
  have hfa1 : fracSumAux br (x.resize br m).right 0
      + (x.resize br m).remainder / br.fracFactor m < 1 := by
    have h := fracSum_rem_lt_one br hv (x.resize br m).right 0 (x.resize br m).remainder
      hFa hsa.2.2.1 hsa.2.2.2
    rw [show (0 + (x.resize br m).right.length) = m from by rw [Nat.zero_add]; exact hra,
      hF0, one_mul] at h
    exact h
  have hfb1 : fracSumAux br (y.resize br m).right 0
      + (y.resize br m).remainder / br.fracFactor m < 1 := by
    have h := fracSum_rem_lt_one br hv (y.resize br m).right 0 (y.resize br m).remainder
      hFb hsb.2.2.1 hsb.2.2.2
    rw [show (0 + (y.resize br m).right.length) = m from by rw [Nat.zero_add]; exact hrb,
      hF0, one_mul] at h
    exact h
  have hsep := nat_frac_sep ((((x.resize br m).intVal br).natAbs : ℤ))
      ((((y.resize br m).intVal br).natAbs : ℤ))
      (fracSumAux br (x.resize br m).right 0
        + (x.resize br m).remainder / br.fracFactor m)
      (fracSumAux br (y.resize br m).right 0
        + (y.resize br m).remainder / br.fracFactor m)
      hfa0 hfa1 hfb0 hfb1 (by rw [Int.cast_natCast, Int.cast_natCast]; linarith [habs'])
  obtain ⟨hint, hfrac⟩ := hsep
  have hIa := intVal_natAbs br (x.resize br m) hsa.2.1
  have hIb := intVal_natAbs br (y.resize br m) hsb.2.1
  rw [hla] at hIa
  rw [hlb] at hIb
  have hsums : sumIntDigits br x.left.reverse 0 = sumIntDigits br y.left.reverse 0 := by
    rw [← hIa, ← hIb]
    exact hint
  have hleft : x.left = y.left :=
    left_digits_unique br hv x.left y.left (validB_left_ne br x hx) (validB_left_ne br y hy)
      (validB_left_norm br x hx) (validB_left_norm br y hy)
      (validB_leftOK br x hx) (validB_leftOK br y hy) hsums
  have hfd := frac_digits_unique br hv m 0 (x.resize br m).right (y.resize br m).right
      (x.resize br m).remainder (y.resize br m).remainder hra hrb hFa hFb
      hsa.2.2.1 hsa.2.2.2 hsb.2.2.1 hsb.2.2.2
      (by rw [Nat.zero_add]; exact hfrac)
  obtain ⟨hrr, hrem⟩ := hfd
  have hnorm : normLeft (x.resize br m).left = (x.resize br m).left := hsa.1
  have hneg := neg_fields (x.resize br m) hnorm
  calc y.resize br m
      = ⟨(y.resize br m).left, (y.resize br m).right, (y.resize br m).sign,
          (y.resize br m).remainder⟩ := rfl
    _ = ⟨(x.resize br m).left, (x.resize br m).right, -(x.resize br m).sign,
          (x.resize br m).remainder⟩ := by
        rw [hsgn, ← hrr, ← hrem, hlb, hla, hleft]
    _ = (x.resize br m).neg := hneg.symm

theorem zipWith_signed_cancel (s : ℤ) (l : List ℕ) :
    List.zipWith (· + ·) (l.map (fun d : ℕ => s * (d : ℤ)))
      (l.map (fun d : ℕ => -s * (d : ℤ))) = List.replicate l.length 0 := by
  induction l with
  | nil => rfl
  | cons d ds ih =>
    simp only [List.map_cons, List.zipWith_cons_cons, List.length_cons,
      List.replicate_succ, ih]
    congr 1
    ring

theorem neg_neg_norm (x : BasedReal) (h : normLeft x.left = x.left) : x.neg.neg = x := by
  have h1 := neg_fields x h
  have h2 : normLeft x.neg.left = x.neg.left := by
    rw [h1]
    exact h
  rw [neg_fields x.neg h2, h1]
  simp

theorem takeWhile_zero_replicate (n : ℕ) :
    (List.replicate n (0 : ℕ)).takeWhile (fun d => d == 0) = List.replicate n 0 := by
  induction n with
  | zero => rfl
  | succ k ih => simp [List.replicate_succ, List.takeWhile_cons, ih]

theorem normLeft_replicate_zero (n : ℕ) : normLeft (List.replicate (n + 1) 0) = [0] := by
  have hmin : min n (n + 1) = n := by omega
  have hd : n + 1 - n = 1 := by omega
  simp only [normLeft, List.length_replicate, Nat.add_sub_cancel, List.take_replicate,
    hmin, takeWhile_zero_replicate, List.drop_replicate, hd]
  simp

theorem decimal_zero_digits (br : RadixBase) (s : ℤ) (m : ℕ) :
    (⟨[0], List.replicate m 0, s, 0⟩ : BasedReal).decimal br = 0 := by
  apply decimal_zero_of_allZero
  refine ⟨?_, ?_, rfl⟩
  · intro d hd
    simpa using hd
  · intro d hd
    exact List.eq_of_mem_replicate hd

theorem addBody_cancel (br : RadixBase) (hv : br.validB = true) (mr ml : ℕ) (s : ℤ)
    (v : BasedReal) (hn : normLeft v.left = v.left)
    (hml : ml ≤ v.left.length + v.right.length) :
    addBody br mr ml s v v.neg
      = some ⟨[0], List.replicate (v.left.length + v.right.length - ml) 0, s, 0⟩ := by
  have hneg := neg_fields v hn
  have hL : v.neg.left = v.left := by rw [hneg]
  have hR : v.neg.right = v.right := by rw [hneg]
  have hS : v.neg.sign = -v.sign := by rw [hneg]
  have hRem : v.neg.remainder = v.remainder := by rw [hneg]
  have hsr1 : signedRev v
      = ((v.left ++ v.right).reverse).map (fun d : ℕ => v.sign * (d : ℤ)) := rfl
  have hsr2 : signedRev v.neg
      = ((v.left ++ v.right).reverse).map (fun d : ℕ => -v.sign * (d : ℤ)) := by
    unfold signedRev
    rw [hL, hR, hS]
  have hlen0 : ((v.left ++ v.right).reverse).length = v.left.length + v.right.length := by
    rw [List.length_reverse, List.length_append]
  have hmaxlen : max (v.left.length + v.right.length)
      (v.neg.left.length + v.neg.right.length) = v.left.length + v.right.length := by
    rw [hL, hR]
    exact max_self _
  have hlen1 : (signedRev v).length = v.left.length + v.right.length := by
    rw [hsr1, List.length_map, hlen0]
  have hlen2 : (signedRev v.neg).length = v.left.length + v.right.length := by
    rw [hsr2, List.length_map, hlen0]
  have hpad1 : padTo (signedRev v) (v.left.length + v.right.length) = signedRev v := by
    unfold padTo
    rw [hlen1]
    simp
  have hpad2 : padTo (signedRev v.neg) (v.left.length + v.right.length)
      = signedRev v.neg := by
    unfold padTo
    rw [hlen2]
    simp
  have hzip : List.zipWith (· + ·) (signedRev v) (signedRev v.neg)
      = List.replicate (v.left.length + v.right.length) 0 := by
    rw [hsr1, hsr2, zipWith_signed_cancel, hlen0]
  have hrem0 : v.remainder * (v.sign : ℚ) + v.neg.remainder * (v.neg.sign : ℚ) = 0 := by
    rw [hRem, hS]
    push_cast
    ring
  have hcat : List.replicate (v.left.length + v.right.length) (0 : ℤ) ++ [0]
      = 0 :: List.replicate (v.left.length + v.right.length) 0 := by
    rw [show (0 :: List.replicate (v.left.length + v.right.length) (0 : ℤ))
        = List.replicate (v.left.length + v.right.length + 1) 0 from
      (List.replicate_succ 0 _).symm]
    rw [show List.replicate (v.left.length + v.right.length + 1) (0 : ℤ)
        = List.replicate (v.left.length + v.right.length) 0 ++ List.replicate 1 0 from
      List.replicate_add _ 1 0]
    rfl
  have hcarry : carryLoop br mr 0
        (List.replicate (v.left.length + v.right.length + 1) 0)
      = some (List.replicate (v.left.length + v.right.length + 1) 0) := by
    apply carryLoop_id
    intro j hj
    rw [List.get_replicate]
    refine ⟨le_refl 0, ?_⟩
    have h2 := atPos_ge2 br hv ((mr : ℤ) - (0 + j))
    omega
  simp only [addBody, hmaxlen, hpad1, hpad2, hzip, hrem0, hcat,
    if_pos (le_refl (0 : ℚ)), ratTrunc_zero, Int.cast_zero, sub_zero, add_zero, abs_zero]
  rw [show (0 :: List.replicate (v.left.length + v.right.length) (0 : ℤ))
      = List.replicate (v.left.length + v.right.length + 1) 0 from
    (List.replicate_succ 0 _).symm, hcarry]
  simp only [List.reverse_replicate, List.map_replicate, Int.natAbs_zero]
  unfold BasedReal.make
  rw [List.take_replicate, List.drop_replicate,
    show min (ml + 1) (v.left.length + v.right.length + 1) = ml + 1 from by omega,
    show v.left.length + v.right.length + 1 - (ml + 1)
      = v.left.length + v.right.length - ml from by omega,
    normLeft_replicate_zero]

theorem addBody_cancel_rev (br : RadixBase) (hv : br.validB = true) (mr ml : ℕ) (s : ℤ)
    (v : BasedReal) (hn : normLeft v.left = v.left)
    (hml : ml ≤ v.left.length + v.right.length) :
    addBody br mr ml s v.neg v
      = some ⟨[0], List.replicate (v.left.length + v.right.length - ml) 0, s, 0⟩ := by
  rw [addBody_comm]
  exact addBody_cancel br hv mr ml s v hn hml

theorem add_value_comm_raw (br : RadixBase) (hv : br.validB = true) (hm : fracMono br)
    (a b : BasedReal) (ha : a.validB br = true) (hb : b.validB br = true) :
    BasedReal._add br a b = BasedReal._add br b a
    ∨ ∃ s1 s2 : ℤ,
        BasedReal._add br a b
            = some ⟨[0], List.replicate (max a.significant b.significant) 0, s1, 0⟩
        ∧ BasedReal._add br b a
            = some ⟨[0], List.replicate (max a.significant b.significant) 0, s2, 0⟩ := by
  have hsa := validB_seminorm br a ha
  have hsb := validB_seminorm br b hb
  by_cases hc : a.decimal br = -(b.decimal br)
  · left
    have hc2 : b.decimal br = -(a.decimal br) := by linarith
    unfold BasedReal._add
    rw [if_pos hc, if_pos hc2]
  · have hc2 : ¬(b.decimal br = -(a.decimal br)) := fun h => hc (by linarith)
    have hma : a.significant ≤ max a.significant b.significant := le_max_left _ _
    have hmb : b.significant ≤ max a.significant b.significant := le_max_right _ _
    have hsa' : seminorm (a.resize br (max a.significant b.significant)) :=
      resize_seminorm br a hsa _ hma
    have hsb' : seminorm (b.resize br (max a.significant b.significant)) :=
      resize_seminorm br b hsb _ hmb
    have hla' : (a.resize br (max a.significant b.significant)).left = a.left :=
      resize_left_of_valid br a ha _ hma
    have hlb' : (b.resize br (max a.significant b.significant)).left = b.left :=
      resize_left_of_valid br b hb _ hmb
    have hral : (a.resize br (max a.significant b.significant)).right.length
        = max a.significant b.significant := resize_right_length br a ha _ hma
    simp only [BasedReal._add]
    rw [if_neg hc, if_neg hc2,
      max_comm b.significant a.significant, max_comm b.left.length a.left.length]
    rcases lt_trichotomy
        ((b.resize br (max a.significant b.significant)).absB.decimal br)
        ((a.resize br (max a.significant b.significant)).absB.decimal br) with ht | ht | ht
    · left
      rw [if_pos ht, if_neg (lt_asymm ht)]
      exact addBody_comm br _ _ _ _ _
    · rw [ht, if_neg (lt_irrefl _), if_neg (lt_irrefl _)]
      rcases hsa'.2.1 with hA | hA <;> rcases hsb'.2.1 with hB | hB
      · left
        rw [hA, hB]
        exact addBody_comm br _ _ _ _ _
      · -- a-side resized sign 1, b-side resized sign -1: mirror cancellation
        have hmir : b.resize br (max a.significant b.significant)
            = (a.resize br (max a.significant b.significant)).neg :=
          resize_mirror br hv hm a b ha hb _ hma hmb ht.symm (by simp [hA, hB])
        have hnla : normLeft (a.resize br (max a.significant b.significant)).left
            = (a.resize br (max a.significant b.significant)).left := hsa'.1
        have hnegf := neg_fields (a.resize br (max a.significant b.significant)) hnla
        have hLn : (a.resize br (max a.significant b.significant)).neg.left
            = (a.resize br (max a.significant b.significant)).left := by rw [hnegf]
        have hRn : (a.resize br (max a.significant b.significant)).neg.right
            = (a.resize br (max a.significant b.significant)).right := by rw [hnegf]
        have hnln : normLeft (a.resize br (max a.significant b.significant)).neg.left
            = (a.resize br (max a.significant b.significant)).neg.left := by
          rw [hLn]
          exact hnla
        have hblft : b.left = a.left := by
          rw [← hlb', hmir, hLn, hla']
        have hML : max a.left.length b.left.length = a.left.length := by
          rw [hblft]
          exact max_self _
        have hcount : (a.resize br (max a.significant b.significant)).neg.left.length
              + (a.resize br (max a.significant b.significant)).neg.right.length
              - max a.left.length b.left.length
            = max a.significant b.significant := by
          rw [hLn, hRn, hla', hral, hML]
          omega
        have hcount2 : (a.resize br (max a.significant b.significant)).left.length
              + (a.resize br (max a.significant b.significant)).right.length
              - max a.left.length b.left.length
            = max a.significant b.significant := by
          rw [hla', hral, hML]
          omega
        have hml1 : max a.left.length b.left.length
            ≤ (a.resize br (max a.significant b.significant)).neg.left.length
              + (a.resize br (max a.significant b.significant)).neg.right.length := by
          rw [hLn, hRn, hla', hral, hML]
          omega
        have hml2 : max a.left.length b.left.length
            ≤ (a.resize br (max a.significant b.significant)).left.length
              + (a.resize br (max a.significant b.significant)).right.length := by
          rw [hla', hral, hML]
          omega
        right
        refine ⟨-1, 1, ?_, ?_⟩
        · rw [hB, if_pos (show (-1 : ℤ) < 0 by norm_num),
            if_pos (show (-1 : ℤ) < 0 by norm_num), hmir,
            addBody_cancel br hv _ _ _ _ hnln hml1, hcount]
        · rw [hA, if_neg (show ¬(1 : ℤ) < 0 by norm_num),
            if_neg (show ¬(1 : ℤ) < 0 by norm_num), hmir,
            addBody_cancel_rev br hv _ _ _ _ hnla hml2, hcount2]
      · -- a-side resized sign -1, b-side resized sign 1: mirror cancellation
        have hmir : b.resize br (max a.significant b.significant)
            = (a.resize br (max a.significant b.significant)).neg :=
          resize_mirror br hv hm a b ha hb _ hma hmb ht.symm (by simp [hA, hB])
        have hnla : normLeft (a.resize br (max a.significant b.significant)).left
            = (a.resize br (max a.significant b.significant)).left := hsa'.1
        have hnegf := neg_fields (a.resize br (max a.significant b.significant)) hnla
        have hLn : (a.resize br (max a.significant b.significant)).neg.left
            = (a.resize br (max a.significant b.significant)).left := by rw [hnegf]
        have hRn : (a.resize br (max a.significant b.significant)).neg.right
            = (a.resize br (max a.significant b.significant)).right := by rw [hnegf]
        have hnln : normLeft (a.resize br (max a.significant b.significant)).neg.left
            = (a.resize br (max a.significant b.significant)).neg.left := by
          rw [hLn]
          exact hnla
        have hblft : b.left = a.left := by
          rw [← hlb', hmir, hLn, hla']
        have hML : max a.left.length b.left.length = a.left.length := by
          rw [hblft]
          exact max_self _
        have hcount : (a.resize br (max a.significant b.significant)).neg.left.length
              + (a.resize br (max a.significant b.significant)).neg.right.length
              - max a.left.length b.left.length
            = max a.significant b.significant := by
          rw [hLn, hRn, hla', hral, hML]
          omega
        have hcount2 : (a.resize br (max a.significant b.significant)).left.length
              + (a.resize br (max a.significant b.significant)).right.length
              - max a.left.length b.left.length
            = max a.significant b.significant := by
          rw [hla', hral, hML]
          omega
        have hml1 : max a.left.length b.left.length
            ≤ (a.resize br (max a.significant b.significant)).neg.left.length
              + (a.resize br (max a.significant b.significant)).neg.right.length := by
          rw [hLn, hRn, hla', hral, hML]
          omega
        have hml2 : max a.left.length b.left.length
            ≤ (a.resize br (max a.significant b.significant)).left.length
              + (a.resize br (max a.significant b.significant)).right.length := by
          rw [hla', hral, hML]
          omega
        right
        refine ⟨1, -1, ?_, ?_⟩
        · rw [hB, if_neg (show ¬(1 : ℤ) < 0 by norm_num),
            if_neg (show ¬(1 : ℤ) < 0 by norm_num), hmir,
            addBody_cancel br hv _ _ _ _ hnla hml2, hcount2]
        · rw [hA, if_pos (show (-1 : ℤ) < 0 by norm_num),
            if_pos (show (-1 : ℤ) < 0 by norm_num), hmir,
            addBody_cancel_rev br hv _ _ _ _ hnln hml1, hcount]
      · left
        rw [hA, hB]
        exact addBody_comm br _ _ _ _ _
    · left
      rw [if_neg (lt_asymm ht), if_pos ht]
      exact addBody_comm br _ _ _ _ _

theorem addOp_value_comm (br : RadixBase) (hv : br.validB = true) (hm : fracMono br)
    (a b : BasedReal) (ha : a.validB br = true) (hb : b.validB br = true) :
    valueD br (addOp br defaultCtx a b) = valueD br (addOp br defaultCtx b a) := by
  rw [addOp_default, addOp_default]
  rcases add_value_comm_raw br hv hm a b ha hb with h | ⟨s1, s2, h1, h2⟩
  · rw [h, max_comm b.significant a.significant]
  · have hz : ∀ s : ℤ,
        ((⟨[0], List.replicate (max a.significant b.significant) 0, s, 0⟩ : BasedReal).resize
            br (max a.significant b.significant))
          = ⟨[0], List.replicate (max a.significant b.significant) 0, s, 0⟩ := by
      intro s
      have h := resize_self br
        (⟨[0], List.replicate (max a.significant b.significant) 0, s, 0⟩ : BasedReal)
      have hsig : (⟨[0], List.replicate (max a.significant b.significant) 0, s, 0⟩
          : BasedReal).significant = max a.significant b.significant := by
        simp [BasedReal.significant]
      rw [hsig] at h
      exact h
    rw [h1, h2, max_comm b.significant a.significant]
    simp only [hz s1, hz s2, valueD, decimal_zero_digits]

theorem temporal_fracRadix (k : ℕ) :
    (⟨[10], [24, 60]⟩ : RadixBase).fracRadix k = if k = 0 then 24 else 60 := by
  match k with
  | 0 => decide
  | 1 => decide
  | (n + 2) =>
    rw [if_neg (by omega)]
    show loopGet [24, 60] ((n + 2 : ℕ) : ℤ) = 60
    have hlen : (([24, 60] : List ℕ).length : ℤ) ≤ ((n + 2 : ℕ) : ℤ) := by
      simp only [List.length_cons, List.length_nil]
      push_cast
      omega
    unfold loopGet
    rw [if_neg (by decide), if_pos hlen]
    rfl

theorem temporal_fracMono : fracMono ⟨[10], [24, 60]⟩ := by
  intro i j hij
  rw [temporal_fracRadix, temporal_fracRadix]
  split_ifs with h1 h2 <;> omega

/-- C8 (corrected): for every valid `BasedReal` `a` (and same-type `b`) over a
valid base whose fractional radices are non-decreasing (`fracMono`, satisfied
by every registered numeral system, including the temporal base
`RadixBase([10], [24, 60])`), under the default precision context:
`a + 0` has the value of `a`; `a + (-a)` is exactly the zero of the smaller of
the two operands' significances; addition is commutative in value — the
comparison Python `==` performs — though the two orders can return
equal-valued zeros of opposite sign attribute; `a * 1` has the value of `a`;
and `a * 0` has value `0`.  On a base with a larger fractional radix before a
smaller one, the source raises `IllegalBaseValueError` inside addition (see
the counterexample), so the unrestricted commutativity claim holds for no
value pair there. -/
theorem claim_c8_additive_multiplicative_identities (br : RadixBase)
    (hv : br.validB = true) (hm : fracMono br) (a b : BasedReal)
    (ha : a.validB br = true) (hb : b.validB br = true) :
    valueD br (addOp br defaultCtx a (BasedReal.zero a.significant)) = some (a.decimal br)
    ∧ addOp br defaultCtx a a.neg
        = .ok (BasedReal.zero (min a.significant a.neg.significant))
    ∧ valueD br (addOp br defaultCtx a b) = valueD br (addOp br defaultCtx b a)
    ∧ valueD br (mulOp br defaultCtx a (BasedReal.one a.significant)) = some (a.decimal br)
    ∧ valueD br (mulOp br defaultCtx a (BasedReal.zero a.significant)) = some 0 :=
  ⟨addOp_zero_right br hv a ha, addOp_neg_cancel br a ha,
    addOp_value_comm br hv hm a b ha hb, mulOp_one_right br a, mulOp_zero_right br a⟩

/-- Witness for C8 at the temporal base `RadixBase([10], [24, 60])` with
`a = 00;12 |r 1/2` and `b = -00;12,12`. -/
theorem claim_c8_witness :
    (⟨[10], [24, 60]⟩ : RadixBase).validB = true
    ∧ (⟨[0], [12], 1, 1/2⟩ : BasedReal).validB ⟨[10], [24, 60]⟩ = true
    ∧ (⟨[0], [12, 12], -1, 0⟩ : BasedReal).validB ⟨[10], [24, 60]⟩ = true
    ∧ (valueD ⟨[10], [24, 60]⟩ (addOp ⟨[10], [24, 60]⟩ defaultCtx
          (⟨[0], [12], 1, 1/2⟩ : BasedReal)
          (BasedReal.zero (⟨[0], [12], 1, 1/2⟩ : BasedReal).significant))
        = some ((⟨[0], [12], 1, 1/2⟩ : BasedReal).decimal ⟨[10], [24, 60]⟩)
      ∧ addOp ⟨[10], [24, 60]⟩ defaultCtx (⟨[0], [12], 1, 1/2⟩ : BasedReal)
            (⟨[0], [12], 1, 1/2⟩ : BasedReal).neg
          = .ok (BasedReal.zero (min (⟨[0], [12], 1, 1/2⟩ : BasedReal).significant
              (⟨[0], [12], 1, 1/2⟩ : BasedReal).neg.significant))
      ∧ valueD ⟨[10], [24, 60]⟩ (addOp ⟨[10], [24, 60]⟩ defaultCtx
            (⟨[0], [12], 1, 1/2⟩ : BasedReal) (⟨[0], [12, 12], -1, 0⟩ : BasedReal))
          = valueD ⟨[10], [24, 60]⟩ (addOp ⟨[10], [24, 60]⟩ defaultCtx
            (⟨[0], [12, 12], -1, 0⟩ : BasedReal) (⟨[0], [12], 1, 1/2⟩ : BasedReal))
      ∧ valueD ⟨[10], [24, 60]⟩ (mulOp ⟨[10], [24, 60]⟩ defaultCtx
          (⟨[0], [12], 1, 1/2⟩ : BasedReal)
          (BasedReal.one (⟨[0], [12], 1, 1/2⟩ : BasedReal).significant))
        = some ((⟨[0], [12], 1, 1/2⟩ : BasedReal).decimal ⟨[10], [24, 60]⟩)
      ∧ valueD ⟨[10], [24, 60]⟩ (mulOp ⟨[10], [24, 60]⟩ defaultCtx
          (⟨[0], [12], 1, 1/2⟩ : BasedReal)
          (BasedReal.zero (⟨[0], [12], 1, 1/2⟩ : BasedReal).significant)) = some 0) :=
  ⟨by decide, by with_unfolding_all decide, by with_unfolding_all decide,
    claim_c8_additive_multiplicative_identities ⟨[10], [24, 60]⟩ (by decide)
      temporal_fracMono (⟨[0], [12], 1, 1/2⟩ : BasedReal)
      (⟨[0], [12, 12], -1, 0⟩ : BasedReal) (by with_unfolding_all decide)
      (by with_unfolding_all decide)⟩

/-- Counterexample to the unrestricted C8 commutativity claim: on the
decreasing base `RadixBase([10], [60, 24])` with `x = 00;00 |r 9/10` and
`y = -00;02,06` (both valid, not exactly cancelling), aligning `x` to two
fractional places rebuilds the digit `⌊9/10 * 60⌋ = 54` at the position whose
radix is `24`; the source `resize` goes through the re-validating constructor,
so `__check_range` raises `IllegalBaseValueError` for digit 54 (range
`[0, 24[`) inside both `x + y` and `y + x`, and the claimed commutativity
equation holds for no value pair on this base. -/
theorem claim_c8_commutativity_counterexample :
    (⟨[10], [60, 24]⟩ : RadixBase).validB = true
    ∧ (⟨[0], [0], 1, 9/10⟩ : BasedReal).validB ⟨[10], [60, 24]⟩ = true
    ∧ (⟨[0], [2, 6], -1, 0⟩ : BasedReal).validB ⟨[10], [60, 24]⟩ = true
    ∧ ¬((⟨[0], [0], 1, 9/10⟩ : BasedReal).decimal ⟨[10], [60, 24]⟩
        = -((⟨[0], [2, 6], -1, 0⟩ : BasedReal).decimal ⟨[10], [60, 24]⟩))
    ∧ (⟨[0], [0], 1, 9/10⟩ : BasedReal).resize ⟨[10], [60, 24]⟩ 2 = ⟨[0], [0, 54], 1, 0⟩
    ∧ checkRange ⟨[10], [60, 24]⟩ [.int 0] [.int 0, .int 54] 1 0
        = some (.illegalBaseValue 24 54) := by
  with_unfolding_all decide
